import Mathlib

/-!
Verification of `src/merge_config_json.py` (python-json-merger).

The file shallowly embeds the parts of the program the claims are about:

* the Ordering Engine (`CustomConfigSorter`: `get_sorted_custom_config`,
  `_pop_group_2`, `_insert_group_2_after_group_1`,
  `_collect_group_ordering_data_item`),
* the Fragment Store Rewriter (`JsonCompiler._recreate_custom_config_files`),
* the Config Compiler orchestration (`JsonCompiler.run` and its steps).

Modelling conventions:

* JSON values are the inductive `JVal`; a JSON object is an association
  list `Obj = List (String × JVal)`; a fragment record is such an object.
* Python exceptions become explicit error values (`CollectErr`, `PyErr`);
  `raise` is an `.error` result, `try/except SortingGroupDoesNotExist`
  is a `match` on `.groupNotFound`.
* The filesystem that `JsonCompiler` touches is the structure `FS`,
  holding the parsed contents of `config/main.json`, the
  `config/custom/groups` directory (filename ↦ parsed array of records,
  in filename-sorted order, `*.json` only, as `_load_custom_config`
  globs and sorts), `config/custom/group_order/order.json`, and the
  output `config.json`.  `FS` stores parsed JSON, so the
  `isinstance` shape checks of `_load_main_config` / `_load_custom_config`
  (dict / list) are discharged by typing and byte-level serialization is
  out of scope; the claims under study do not exercise them.
* `logger.info/warning/error` calls become `LogEntry` values collected in
  a trace list, so that claims about what is logged can be stated.
* Failures of `shutil` operations while replacing the live store are
  modelled by an optional injected failing step (`FailStep`), the only
  way those operations can fail once the backup snapshot succeeded.
* Python `data_obj["group"]` on a record is association-list lookup;
  a missing key is `none` (Python: `KeyError`).  The sorter compares the
  looked-up JSON value to a group-name string with Python `==`, which is
  `True` only when the value is that string (`JVal.eqStr`).
* The Fragment Store Rewriter uses the record's group value as a dict
  key and a file name; the model requires it to be a string there
  (all claims use string group values).
-/

/-- A JSON value (numbers restricted to integers; the claims use none
other).  An object carries its key/value pairs in insertion order, as a
Python dict parsed by `json.load` does. -/
inductive JVal where
  | null : JVal
  | bool (b : Bool) : JVal
  | num (n : Int) : JVal
  | str (s : String) : JVal
  | arr (elems : List JVal) : JVal
  | obj (fields : List (String × JVal)) : JVal

/-- Python `v == name` where `name` is a `str`: true exactly when `v`
is the same string. -/
def JVal.eqStr : JVal → String → Bool
  | .str t, s => t == s
  | _, _ => false

/-- The group value as a string, when it is one. -/
def JVal.asString : JVal → Option String
  | .str s => some s
  | _ => none

/-- A JSON object: ordered key/value pairs (Python dict). -/
abbrev Obj : Type := List (String × JVal)

/-- A custom-config fragment record: a JSON object expected to carry a
`"group"` key. -/
abbrev Record : Type := Obj

/-- Python `d[k]` on a dict: `some` value, or `none` (KeyError). -/
def lookupKey : Obj → String → Option JVal
  | [], _ => none
  | (k, v) :: t, key => if k == key then some v else lookupKey t key

/-- `data_obj["group"]` for a record. -/
def recordGroup (r : Record) : Option JVal :=
  lookupKey r "group"

/-- Python `d[k] = v` on a dict: replace in place if present, else
append (insertion order is preserved). -/
def setKey : Obj → String → JVal → Obj
  | [], k, v => [(k, v)]
  | (k', v') :: t, k, v =>
    if k' == k then (k, v) :: t else (k', v') :: setKey t k v

/-- `GroupOrderingDataItem` dataclass: first and last index at which a
record of the requested group was seen (`None` = not seen yet). -/
structure GroupOrderingDataItem where
  first_item_index : Option Nat := none
  last_item_index : Option Nat := none

/-- `GroupOrderingDataItem.is_found`. -/
def GroupOrderingDataItem.is_found (it : GroupOrderingDataItem) : Bool :=
  it.first_item_index.isSome && it.last_item_index.isSome

variable {ρ : Type}

/-- Errors escaping `_collect_group_ordering_data_item`:
`keyError r` is Python's `KeyError` on `r["group"]` (re-raised after the
record is logged), `groupNotFound g` is `SortingGroupDoesNotExist(g)`.
The element type is a parameter so the same code can run on records and
on heap addresses of records (Python object references). -/
inductive CollectErr (ρ : Type) where
  | keyError (r : ρ) : CollectErr ρ
  | groupNotFound (name : String) : CollectErr ρ

/-- The `for i, data_obj in enumerate(self._custom_config)` loop of
`_collect_group_ordering_data_item`, with the running index and the
mutable `first_item_index` / `last_item_index` made explicit.
`gg` is `data_obj["group"]` for the element type. -/
def collectGo (gg : ρ → Option JVal) (g : String) :
    List ρ → Nat → Option Nat → Option Nat →
    Except (CollectErr ρ) GroupOrderingDataItem
  | [], _, first, last => .ok ⟨first, last⟩
  | r :: rest, i, first, last =>
    match gg r with
    | none => .error (.keyError r)
    | some v =>
      collectGo gg g rest (i + 1)
        (if first = none ∧ v.eqStr g then some i else first)
        (if v.eqStr g then some i else last)

/-- `CustomConfigSorter._collect_group_ordering_data_item`: scan the
whole sequence recording first and last index of the group; raise
`SortingGroupDoesNotExist` when the group was never seen. -/
def _collect_group_ordering_data_item (gg : ρ → Option JVal)
    (custom_config : List ρ) (group_name : String) :
    Except (CollectErr ρ) GroupOrderingDataItem :=
  match collectGo gg group_name custom_config 0 none none with
  | .error e => .error e
  | .ok it => if it.is_found then .ok it else .error (.groupNotFound group_name)

/-- `CustomConfigSorter._pop_group_2`: remove the span
`first..last` (inclusive) of `group_name_2` and return it together with
the shrunk sequence (`before_group_2 + after_group_2`).  The slice
bounds are the collected indices; `is_found` guarantees both are
present, `getD 0` only unwraps them. -/
def _pop_group_2 (gg : ρ → Option JVal) (custom_config : List ρ)
    (group_name_2 : String) : Except (CollectErr ρ) (List ρ × List ρ) :=
  match _collect_group_ordering_data_item gg custom_config group_name_2 with
  | .error e => .error e
  | .ok it =>
    let first := it.first_item_index.getD 0
    let last := it.last_item_index.getD 0
    .ok ((custom_config.take (last + 1)).drop first,
      custom_config.take first ++ custom_config.drop (last + 1))

/-- `CustomConfigSorter._insert_group_2_after_group_1`: splice the
extracted span back in immediately after the last index of
`group_name_1` in the current (shrunk) sequence. -/
def _insert_group_2_after_group_1 (gg : ρ → Option JVal)
    (custom_config : List ρ) (group_name_1 : String) (group_2 : List ρ) :
    Except (CollectErr ρ) (List ρ) :=
  match _collect_group_ordering_data_item gg custom_config group_name_1 with
  | .error e => .error e
  | .ok it =>
    let last := it.last_item_index.getD 0
    .ok (custom_config.take (last + 1) ++ group_2 ++
      custom_config.drop (last + 1))

/-- The `for group_name_1, group_name_2 in zip(...)` loop of
`get_sorted_custom_config`.  Each iteration pops group 2 and reinserts
it after group 1; `SortingGroupDoesNotExist` is caught and the group
name recorded (`missing_groups` / the warning log, collected here in
raise order), any `KeyError` propagates.  Returns the final sequence
(or the KeyError record) and the warned group names. -/
def sortLoop (gg : ρ → Option JVal) :
    List (String × String) → List ρ → List String →
    Except ρ (List ρ) × List String
  | [], cfg, ws => (.ok cfg, ws)
  | (g1, g2) :: rest, cfg, ws =>
    match _pop_group_2 gg cfg g2 with
    | .error (.keyError r) => (.error r, ws)
    | .error (.groupNotFound n) => sortLoop gg rest cfg (ws ++ [n])
    | .ok (group_2, cfg') =>
      match _insert_group_2_after_group_1 gg cfg' g1 group_2 with
      | .error (.keyError r) => (.error r, ws)
      | .error (.groupNotFound n) => sortLoop gg rest cfg' (ws ++ [n])
      | .ok cfg'' => sortLoop gg rest cfg'' ws

/-- `CustomConfigSorter.get_sorted_custom_config`.  (The deep copy taken
by `__init__` is the identity on values; aliasing is modelled
separately, see `sorterInit`.) -/
def get_sorted_custom_config (gg : ρ → Option JVal) (custom_config : List ρ)
    (ordering_data : List String) : Except ρ (List ρ) × List String :=
  sortLoop gg (ordering_data.zip ordering_data.tail) custom_config []

/-- The `sorted_groups` reported by the final `logger.info` of
`get_sorted_custom_config`: the ordering names that never failed a
lookup, in specification order. -/
def sortedGroupsReport (ordering_data missing : List String) : List String :=
  ordering_data.filter (fun g => !(missing.contains g))

/-- Membership of a record in a group, as the sorter tests it:
`data_obj["group"] == group_name` (false when the key is missing). -/
def tagged (gg : ρ → Option JVal) (g : String) (r : ρ) : Bool :=
  match gg r with
  | some v => v.eqStr g
  | none => false

/-- Every element carries a `"group"` key (the Record invariant of the
spec's data model). -/
def wfG (gg : ρ → Option JVal) (cfg : List ρ) : Prop :=
  ∀ r ∈ cfg, (gg r).isSome

/-! ## The Config Compiler and its filesystem -/

/-- The slice of the filesystem `JsonCompiler` reads and writes, holding
parsed JSON contents (`none` = file/directory absent):
`main_config` is `config/main.json`, `groups_dir` is the
`config/custom/groups` directory (filename ↦ array of records, in
filename-sorted order), `order_file` is
`config/custom/group_order/order.json` (an array of group names), and
`output` is the merged `config.json` at the theme root. -/
structure FS where
  main_config : Option Obj
  groups_dir : Option (List (String × List Record))
  order_file : Option (List String)
  output : Option JVal

/-- One entry of the log trace (`logger.info/warning/error`). -/
inductive LogEntry where
  | infoLoadedMain : LogEntry
  | infoNoCustomDir : LogEntry
  | infoNoCustomFiles : LogEntry
  | infoLoadedCustom (file : String) : LogEntry
  | infoNoGroupOrder : LogEntry
  | infoGroupOrderEmpty : LogEntry
  | warnGroupNotFound (name : String) : LogEntry
  | errorMalformed (r : Record) : LogEntry
  | infoSortedGroups (names : List String) : LogEntry
  | infoRemovedGroups (names : List String) : LogEntry
  | infoNewGroups (names : List String) : LogEntry
  | errorRestoring : LogEntry
  | infoRecreated : LogEntry
  | infoWroteOutput : LogEntry

/-- Python exceptions escaping a compiler step. -/
inductive FailStep where
  | copyOrderFile : FailStep
  | removeGroupsDir : FailStep
  | copyGroupsDir : FailStep
deriving DecidableEq

/-- Python exceptions escaping a compiler step.  `keyError r` is a
missing `"group"` key on record `r`; `injected s` stands for an
arbitrary environment failure (e.g. `OSError`) of live-store replacement
step `s`, the fault the rewriter's `try/except` compensates for. -/
inductive PyErr where
  | fileNotFound (path : String) : PyErr
  | typeError (msg : String) : PyErr
  | valueError (msg : String) : PyErr
  | keyError (r : Record) : PyErr
  | injected (step : FailStep) : PyErr

/-- `groups[config_obj["group"]].append(config_obj)` on a `defaultdict`:
append under the key, keeping first-insertion key order. -/
def insertGrouped : List (String × List Record) → String → Record →
    List (String × List Record)
  | [], k, r => [(k, [r])]
  | (k', rs) :: t, k, r =>
    if k' == k then (k', rs ++ [r]) :: t else (k', rs) :: insertGrouped t k r

/-- The partition loop at the top of `_recreate_custom_config_files`:
group records by their `"group"` value in first-seen order.  A record
without the key raises `KeyError` at once.  The model requires the
group value to be a string (it is used as dict key and file name);
every claim under study has string groups. -/
def partitionGroups : List Record → List (String × List Record) →
    Except PyErr (List (String × List Record))
  | [], acc => .ok acc
  | r :: rest, acc =>
    match recordGroup r with
    | none => .error (.keyError r)
    | some v =>
      match v.asString with
      | none => .error (.typeError "non-string group value (model scope)")
      | some s => partitionGroups rest (insertGrouped acc s r)

/-- `JsonCompiler._load_main_config`: the parsed object of
`config/main.json`, or `FileNotFoundError`. -/
def _load_main_config (fs : FS) : Except PyErr Obj × List LogEntry :=
  match fs.main_config with
  | none => (.error (.fileNotFound "config/main.json"), [])
  | some m => (.ok m, [.infoLoadedMain])

/-- `JsonCompiler._load_custom_config`: concatenate the fragment files
of `config/custom/groups` in filename-sorted order; a missing directory
or an empty one is tolerated (empty fragment set). -/
def _load_custom_config (fs : FS) : List Record × List LogEntry :=
  match fs.groups_dir with
  | none => ([], [.infoNoCustomDir])
  | some files =>
    if files.isEmpty then ([], [.infoNoCustomFiles])
    else ((files.map (fun f => f.2)).flatten,
      files.map (fun f => .infoLoadedCustom f.1))

/-- `JsonCompiler._sort_custom_config`: skip when `order.json` is
missing or empty, `ValueError` when it has fewer than two names,
otherwise run the Ordering Engine.  Returns the (possibly re-ordered)
records together with the loaded `self._ordering_data`. -/
def _sort_custom_config (fs : FS) (custom_config : List Record) :
    Except PyErr (List Record × List String) × List LogEntry :=
  match fs.order_file with
  | none => (.ok (custom_config, []), [.infoNoGroupOrder])
  | some od =>
    if od.length = 0 then (.ok (custom_config, od), [.infoGroupOrderEmpty])
    else if od.length < 2 then
      (.error (.valueError "Group order json must have at least 2 group names"),
        [])
    else
      match get_sorted_custom_config recordGroup custom_config od with
      | (.ok sorted, ws) =>
        (.ok (sorted, od),
          ws.map .warnGroupNotFound ++
            [.infoSortedGroups (sortedGroupsReport od ws)])
      | (.error r, ws) =>
        (.error (.keyError r), ws.map .warnGroupNotFound ++ [.errorMalformed r])

/-- `JsonCompiler._recreate_custom_config_files`: partition the records,
build the new store in a scratch location (pure values here), snapshot
the live store into a backup (fails when the live `order.json` or
`groups` directory is absent — those `shutil` calls sit before the
`try`), then replace the live store; any exception while replacing
(modelled by `failAt`) triggers restoration from the backup and is
re-raised.  Returns the error if any, the resulting filesystem, and the
log. -/
def _recreate_custom_config_files (fs : FS) (ordering_data : List String)
    (custom_config : List Record) (failAt : Option FailStep) :
    Option PyErr × FS × List LogEntry :=
  match partitionGroups custom_config [] with
  | .error e => (some e, fs, [])
  | .ok groups =>
    let newGroupsDir := groups.map (fun g => (g.1 ++ ".json", g.2))
    let newOrder := groups.map (fun g => g.1)
    let lgDiff :=
      (if (ordering_data.filter (fun g => !(newOrder.contains g))).length > 0
        then [LogEntry.infoRemovedGroups
          (ordering_data.filter (fun g => !(newOrder.contains g)))] else []) ++
      (if (newOrder.filter (fun g => !(ordering_data.contains g))).length > 0
        then [LogEntry.infoNewGroups
          (newOrder.filter (fun g => !(ordering_data.contains g)))] else [])
    match fs.order_file with
    | none =>
      (some (.fileNotFound "config/custom/group_order/order.json"), fs, lgDiff)
    | some backupOrder =>
      match fs.groups_dir with
      | none => (some (.fileNotFound "config/custom/groups"), fs, lgDiff)
      | some backupGroups =>
        if failAt = some .copyOrderFile then
          (some (.injected .copyOrderFile),
            { fs with order_file := some backupOrder,
                      groups_dir := some backupGroups },
            lgDiff ++ [.errorRestoring])
        else
          let fs1 := { fs with order_file := some newOrder }
          if failAt = some .removeGroupsDir then
            (some (.injected .removeGroupsDir),
              { fs1 with order_file := some backupOrder,
                         groups_dir := some backupGroups },
              lgDiff ++ [.errorRestoring])
          else
            let fs2 :=
              if fs1.groups_dir.isSome then { fs1 with groups_dir := none }
              else fs1
            if failAt = some .copyGroupsDir then
              (some (.injected .copyGroupsDir),
                { fs2 with order_file := some backupOrder,
                           groups_dir := some backupGroups },
                lgDiff ++ [.errorRestoring])
            else
              (none, { fs2 with groups_dir := some newGroupsDir },
                lgDiff ++ [.infoRecreated])

/-- `JsonCompiler._get_joined_main_and_custom_config`: a copy of the
main config with the reserved key `customConfig` set to the final
record sequence. -/
def _get_joined_main_and_custom_config (main_config : Obj)
    (custom_config : List Record) : Obj :=
  setKey main_config "customConfig" (.arr (custom_config.map .obj))

/-- `JsonCompiler._replace_config_in_root`: write the merged document to
`config.json` at the theme root. -/
def _replace_config_in_root (fs : FS) (config : Obj) : FS :=
  { fs with output := some (.obj config) }

/-- `JsonCompiler.run`: load main config, load fragments, sort, rewrite
the store, merge and write the output.  `failAt` injects a failure into
live-store replacement (`none` = no environment fault). -/
def JsonCompiler.run (fs : FS) (failAt : Option FailStep) :
    Option PyErr × FS × List LogEntry :=
  match _load_main_config fs with
  | (.error e, lg) => (some e, fs, lg)
  | (.ok m, lg1) =>
    let (cc0, lg2) := _load_custom_config fs
    match _sort_custom_config fs cc0 with
    | (.error e, lg3) => (some e, fs, lg1 ++ lg2 ++ lg3)
    | (.ok (cc, ordering), lg3) =>
      match _recreate_custom_config_files fs ordering cc failAt with
      | (some e, fs', lg4) => (some e, fs', lg1 ++ lg2 ++ lg3 ++ lg4)
      | (none, fs', lg4) =>
        let merged := _get_joined_main_and_custom_config m cc
        (none, _replace_config_in_root fs' merged,
          lg1 ++ lg2 ++ lg3 ++ lg4 ++ [.infoWroteOutput])

/-! ## Aliasing model for `CustomConfigSorter.__init__` (claim C10)

Python lists hold object references.  A heap is a list of record
objects and a Python list of records is a list of addresses into it.
`copy.deepcopy` in `CustomConfigSorter.__init__` allocates fresh cells
holding copies of the referenced records; the sorter then only ever
rebinds `self._custom_config` to new lists of those fresh addresses and
never writes any record object, so the heap after construction is the
heap for the whole run. -/

/-- `copy.deepcopy(custom_config)` at the heap level: extend the heap
with copies of the referenced records and return the new heap together
with the fresh addresses handed to the sorter. -/
def sorterInit (heap : List Record) (addrs : List Nat) :
    List Record × List Nat :=
  (heap ++ addrs.map (fun a => heap.getD a []),
    (List.range addrs.length).map (fun i => i + heap.length))

/-- `data_obj["group"]` through an address: dereference, then look up. -/
def derefGroup (heap : List Record) (a : Nat) : Option JVal :=
  recordGroup (heap.getD a [])

/-! ## Basic properties of group membership -/

/-- A list with no record of group `g`. -/
def NoG (gg : ρ → Option JVal) (g : String) (rs : List ρ) : Prop :=
  ∀ r ∈ rs, tagged gg g r = false

/-- A nonempty list consisting only of records of group `g`. -/
def PureG (gg : ρ → Option JVal) (g : String) (rs : List ρ) : Prop :=
  rs ≠ [] ∧ ∀ r ∈ rs, tagged gg g r = true

/-- Group `g` exists in `cfg` and its records form one contiguous span. -/
def IsBlocked (gg : ρ → Option JVal) (g : String) (cfg : List ρ) : Prop :=
  ∃ A B C, cfg = A ++ B ++ C ∧ PureG gg g B ∧ NoG gg g A ∧ NoG gg g C

/-- The full span of `g₂`'s records immediately follows the full span of
`g₁`'s records. -/
def Adj (gg : ρ → Option JVal) (g₁ g₂ : String) (cfg : List ρ) : Prop :=
  ∃ A B₁ B₂ C, cfg = A ++ B₁ ++ B₂ ++ C ∧ PureG gg g₁ B₁ ∧ PureG gg g₂ B₂ ∧
    NoG gg g₁ A ∧ NoG gg g₂ A ∧ NoG gg g₁ C ∧ NoG gg g₂ C

theorem NoG_nil {gg : ρ → Option JVal} {g : String} : NoG gg g ([] : List ρ) :=
  fun r hr => absurd hr (by simp)

theorem tagged_unique {gg : ρ → Option JVal} {a b : String} {r : ρ}
    (ha : tagged gg a r = true) (hb : tagged gg b r = true) : a = b := by
  unfold tagged at ha hb
  cases hv : gg r with
  | none => rw [hv] at ha; exact absurd ha (by simp)
  | some v =>
    rw [hv] at ha hb
    cases v <;> simp [JVal.eqStr] at ha hb
    exact ha.symm.trans hb

theorem tagged_ne_false {gg : ρ → Option JVal} {a b : String} {r : ρ}
    (ha : tagged gg a r = true) (hab : a ≠ b) : tagged gg b r = false := by
  cases hb : tagged gg b r with
  | false => rfl
  | true => exact absurd (tagged_unique ha hb) hab

theorem isSome_of_tagged {gg : ρ → Option JVal} {g : String} {r : ρ}
    (h : tagged gg g r = true) : (gg r).isSome := by
  unfold tagged at h
  cases hv : gg r with
  | none => rw [hv] at h; exact absurd h (by simp)
  | some v => simp

/-! ## Characterizations of the collect loop -/

theorem collectGo_skip {gg : ρ → Option JVal} {g : String} :
    ∀ (xs : List ρ) (i : Nat) (f₀ l₀ : Option Nat),
    (∀ r ∈ xs, (gg r).isSome) → (∀ r ∈ xs, tagged gg g r = false) →
    collectGo gg g xs i f₀ l₀ = .ok ⟨f₀, l₀⟩ := by
  intro xs
  induction xs with
  | nil => intro i f₀ l₀ _ _; rfl
  | cons r rest ih =>
    intro i f₀ l₀ hwf hng
    have hr := hwf r (by simp)
    cases hv : gg r with
    | none => rw [hv] at hr; exact absurd hr (by simp)
    | some v =>
      have hnt : v.eqStr g = false := by
        have := hng r (by simp); unfold tagged at this; rw [hv] at this
        exact this
      simp only [collectGo, hv, hnt, Bool.false_eq_true, and_false, if_false]
      exact ih (i + 1) f₀ l₀ (fun x hx => hwf x (by simp [hx]))
        (fun x hx => hng x (by simp [hx]))

theorem collectGo_pure_some {gg : ρ → Option JVal} {g : String} :
    ∀ (xs : List ρ) (i f : Nat) (l₀ : Option Nat),
    xs ≠ [] → (∀ r ∈ xs, tagged gg g r = true) →
    collectGo gg g xs i (some f) l₀ =
      .ok ⟨some f, some (i + xs.length - 1)⟩ := by
  intro xs
  induction xs with
  | nil => intro _ _ _ h _; exact absurd rfl h
  | cons r rest ih =>
    intro i f l₀ _ hpt
    cases hv : gg r with
    | none =>
      have hr := hpt r (by simp)
      unfold tagged at hr; rw [hv] at hr
      exact absurd hr (by simp)
    | some v =>
      have hr : v.eqStr g = true := by
        have h2 := hpt r (by simp)
        unfold tagged at h2; rw [hv] at h2; exact h2
      simp only [collectGo, hv, hr]
      rw [if_pos trivial, if_neg (by simp)]
      rcases eq_or_ne rest [] with hre | hre
      · subst hre; simp [collectGo]
      · rw [ih (i + 1) f (some i) hre (fun x hx => hpt x (by simp [hx]))]
        have : i + 1 + rest.length - 1 = i + (r :: rest).length - 1 := by
          simp only [List.length_cons]; omega
        rw [this]

theorem collectGo_pure_none {gg : ρ → Option JVal} {g : String}
    (xs : List ρ) (i : Nat) (l₀ : Option Nat)
    (hne : xs ≠ []) (hpt : ∀ r ∈ xs, tagged gg g r = true) :
    collectGo gg g xs i none l₀ =
      .ok ⟨some i, some (i + xs.length - 1)⟩ := by
  cases xs with
  | nil => exact absurd rfl hne
  | cons r rest =>
    cases hv : gg r with
    | none =>
      have hr := hpt r (by simp)
      unfold tagged at hr; rw [hv] at hr
      exact absurd hr (by simp)
    | some v =>
      have hr : v.eqStr g = true := by
        have h2 := hpt r (by simp)
        unfold tagged at h2; rw [hv] at h2; exact h2
      simp only [collectGo, hv, hr]
      rw [if_pos trivial, if_pos ⟨trivial, trivial⟩]
      rcases eq_or_ne rest [] with hre | hre
      · subst hre; simp [collectGo]
      · rw [collectGo_pure_some rest (i + 1) i (some i) hre
          (fun x hx => hpt x (by simp [hx]))]
        have : i + 1 + rest.length - 1 = i + (r :: rest).length - 1 := by
          simp only [List.length_cons]; omega
        rw [this]

theorem collectGo_append_ok {gg : ρ → Option JVal} {g : String} :
    ∀ (xs : List ρ) (ys : List ρ) (i : Nat) (f₀ l₀ : Option Nat)
    (it : GroupOrderingDataItem),
    collectGo gg g xs i f₀ l₀ = .ok it →
    collectGo gg g (xs ++ ys) i f₀ l₀ =
      collectGo gg g ys (i + xs.length) it.first_item_index
        it.last_item_index := by
  intro xs
  induction xs with
  | nil =>
    intro ys i f₀ l₀ it h
    simp only [collectGo] at h
    cases h
    simp
  | cons r rest ih =>
    intro ys i f₀ l₀ it h
    cases hv : gg r with
    | none => simp [collectGo, hv] at h
    | some v =>
      simp only [collectGo, hv] at h
      simp only [List.cons_append, collectGo, hv]
      rw [List.append_eq, ih ys (i + 1) _ _ it h]
      have : i + 1 + rest.length = i + (r :: rest).length := by
        simp only [List.length_cons]; omega
      rw [this]

theorem collectGo_append_err {gg : ρ → Option JVal} {g : String} :
    ∀ (xs : List ρ) (ys : List ρ) (i : Nat) (f₀ l₀ : Option Nat)
    (e : CollectErr ρ),
    collectGo gg g xs i f₀ l₀ = .error e →
    collectGo gg g (xs ++ ys) i f₀ l₀ = .error e := by
  intro xs
  induction xs with
  | nil => intro ys i f₀ l₀ e h; simp [collectGo] at h
  | cons r rest ih =>
    intro ys i f₀ l₀ e h
    cases hv : gg r with
    | none =>
      simp only [collectGo, hv] at h
      cases h
      simp [collectGo, hv]
    | some v =>
      simp only [collectGo, hv] at h
      simp only [List.cons_append, collectGo, hv]
      rw [List.append_eq]
      exact ih ys (i + 1) _ _ e h

theorem collect_blocked {gg : ρ → Option JVal} {g : String} {A B C : List ρ}
    (hA : NoG gg g A) (hAwf : ∀ r ∈ A, (gg r).isSome)
    (hB : PureG gg g B)
    (hC : NoG gg g C) (hCwf : ∀ r ∈ C, (gg r).isSome) :
    _collect_group_ordering_data_item gg (A ++ B ++ C) g =
      .ok ⟨some A.length, some (A.length + B.length - 1)⟩ := by
  unfold _collect_group_ordering_data_item
  have h1 : collectGo gg g A 0 none none = .ok ⟨none, none⟩ :=
    collectGo_skip A 0 none none hAwf hA
  have h2 : collectGo gg g B A.length none none =
      .ok ⟨some A.length, some (A.length + B.length - 1)⟩ :=
    collectGo_pure_none B A.length none hB.1 hB.2
  have h3 : collectGo gg g C (A.length + B.length) (some A.length)
      (some (A.length + B.length - 1)) =
      .ok ⟨some A.length, some (A.length + B.length - 1)⟩ :=
    collectGo_skip C (A.length + B.length) _ _ hCwf hC
  rw [List.append_assoc, collectGo_append_ok A (B ++ C) 0 none none _ h1]
  simp only [Nat.zero_add]
  rw [collectGo_append_ok B C A.length none none _ h2]
  rw [h3]
  simp [GroupOrderingDataItem.is_found]

theorem pop_blocked {gg : ρ → Option JVal} {g : String} {A B C : List ρ}
    (hA : NoG gg g A) (hAwf : ∀ r ∈ A, (gg r).isSome)
    (hB : PureG gg g B)
    (hC : NoG gg g C) (hCwf : ∀ r ∈ C, (gg r).isSome) :
    _pop_group_2 gg (A ++ B ++ C) g = .ok (B, A ++ C) := by
  unfold _pop_group_2
  rw [collect_blocked hA hAwf hB hC hCwf]
  have hBlen : 1 ≤ B.length := List.length_pos.mpr hB.1
  have e1 : A.length + B.length - 1 + 1 = A.length + B.length := by omega
  simp only [Option.getD_some]
  rw [e1]
  have e2 : (A ++ B ++ C).take (A.length + B.length) = A ++ B :=
    List.take_left' (by simp)
  have e3 : (A ++ B ++ C).take A.length = A := by
    rw [List.append_assoc]; exact List.take_left A (B ++ C)
  have e4 : (A ++ B ++ C).drop (A.length + B.length) = C :=
    List.drop_left' (by simp)
  rw [e2, e3, e4, List.drop_left]

theorem insert_blocked {gg : ρ → Option JVal} {g₁ : String}
    {X B₁ Y : List ρ} (block : List ρ)
    (hX : NoG gg g₁ X) (hXwf : ∀ r ∈ X, (gg r).isSome)
    (hB : PureG gg g₁ B₁)
    (hY : NoG gg g₁ Y) (hYwf : ∀ r ∈ Y, (gg r).isSome) :
    _insert_group_2_after_group_1 gg (X ++ B₁ ++ Y) g₁ block =
      .ok (X ++ B₁ ++ block ++ Y) := by
  unfold _insert_group_2_after_group_1
  rw [collect_blocked hX hXwf hB hY hYwf]
  have hBlen : 1 ≤ B₁.length := List.length_pos.mpr hB.1
  have e1 : X.length + B₁.length - 1 + 1 = X.length + B₁.length := by omega
  simp only [Option.getD_some]
  rw [e1]
  have e2 : (X ++ B₁ ++ Y).take (X.length + B₁.length) = X ++ B₁ :=
    List.take_left' (by simp)
  have e4 : (X ++ B₁ ++ Y).drop (X.length + B₁.length) = Y :=
    List.drop_left' (by simp)
  rw [e2, e4]

theorem collect_absent {gg : ρ → Option JVal} {g : String} {cfg : List ρ}
    (hwf : wfG gg cfg) (habs : NoG gg g cfg) :
    _collect_group_ordering_data_item gg cfg g =
      .error (.groupNotFound g) := by
  unfold _collect_group_ordering_data_item
  rw [collectGo_skip cfg 0 none none hwf habs]
  simp [GroupOrderingDataItem.is_found]

theorem pop_absent {gg : ρ → Option JVal} {g : String} {cfg : List ρ}
    (hwf : wfG gg cfg) (habs : NoG gg g cfg) :
    _pop_group_2 gg cfg g = .error (.groupNotFound g) := by
  unfold _pop_group_2
  rw [collect_absent hwf habs]

theorem insert_absent {gg : ρ → Option JVal} {g : String} {cfg : List ρ}
    (block : List ρ) (hwf : wfG gg cfg) (habs : NoG gg g cfg) :
    _insert_group_2_after_group_1 gg cfg g block =
      .error (.groupNotFound g) := by
  unfold _insert_group_2_after_group_1
  rw [collect_absent hwf habs]

theorem collectGo_ok_of_wf {gg : ρ → Option JVal} {g : String} :
    ∀ (xs : List ρ) (i : Nat) (f₀ l₀ : Option Nat),
    (∀ r ∈ xs, (gg r).isSome) →
    ∃ it, collectGo gg g xs i f₀ l₀ = .ok it := by
  intro xs
  induction xs with
  | nil => intro i f₀ l₀ _; exact ⟨⟨f₀, l₀⟩, rfl⟩
  | cons r rest ih =>
    intro i f₀ l₀ hwf
    have hr := hwf r (by simp)
    cases hv : gg r with
    | none => rw [hv] at hr; exact absurd hr (by simp)
    | some v =>
      simp only [collectGo, hv]
      exact ih (i + 1) _ _ (fun x hx => hwf x (by simp [hx]))

theorem collect_keyerr {gg : ρ → Option JVal} {g : String}
    {F : List ρ} {r₀ : ρ} {R : List ρ}
    (hF : ∀ r ∈ F, (gg r).isSome) (hr₀ : gg r₀ = none) :
    _collect_group_ordering_data_item gg (F ++ r₀ :: R) g =
      .error (.keyError r₀) := by
  unfold _collect_group_ordering_data_item
  obtain ⟨it, hit⟩ := collectGo_ok_of_wf F 0 none none hF
  rw [collectGo_append_ok F (r₀ :: R) 0 none none it hit]
  simp [collectGo, hr₀]

theorem collectGo_stateSome {gg : ρ → Option JVal} {g : String} :
    ∀ (xs : List ρ) (i f l₀ : Nat),
    (∀ r ∈ xs, (gg r).isSome) →
    ∃ l, collectGo gg g xs i (some f) (some l₀) = .ok ⟨some f, some l⟩ ∧
      ((l = l₀ ∧ NoG gg g xs) ∨
        (i ≤ l ∧ l < i + xs.length ∧ NoG gg g (xs.drop (l + 1 - i)))) := by
  intro xs
  induction xs with
  | nil =>
    intro i f l₀ _
    exact ⟨l₀, rfl, Or.inl ⟨rfl, fun r hr => absurd hr (by simp)⟩⟩
  | cons r rest ih =>
    intro i f l₀ hwf
    have hr := hwf r (by simp)
    cases hv : gg r with
    | none => rw [hv] at hr; exact absurd hr (by simp)
    | some v =>
      have hstep : ∀ l' : Option Nat, collectGo gg g (r :: rest) i (some f) l' =
          collectGo gg g rest (i + 1) (some f)
            (if v.eqStr g then some i else l') := by
        intro l'
        simp only [collectGo, hv]
        rw [if_neg (by simp)]
      cases hv2 : v.eqStr g with
      | false =>
        rw [hstep (some l₀), hv2, if_neg (by simp)]
        obtain ⟨l, hgo, hcase⟩ := ih (i + 1) f l₀
          (fun x hx => hwf x (by simp [hx]))
        refine ⟨l, hgo, ?_⟩
        rcases hcase with ⟨hl, hng⟩ | ⟨h1, h2, h3⟩
        · refine Or.inl ⟨hl, fun x hx => ?_⟩
          rcases List.mem_cons.mp hx with hx | hx
          · subst hx; unfold tagged; rw [hv]; exact hv2
          · exact hng x hx
        · refine Or.inr ⟨by omega, by simp only [List.length_cons]; omega, ?_⟩
          have e : l + 1 - i = (l + 1 - (i + 1)) + 1 := by omega
          rw [e, List.drop_succ_cons]
          exact h3
      | true =>
        rw [hstep (some l₀), hv2, if_pos rfl]
        obtain ⟨l, hgo, hcase⟩ := ih (i + 1) f i
          (fun x hx => hwf x (by simp [hx]))
        refine ⟨l, hgo, ?_⟩
        rcases hcase with ⟨hl, hng⟩ | ⟨h1, h2, h3⟩
        · refine Or.inr ⟨by omega, by simp only [List.length_cons]; omega, ?_⟩
          have e : l + 1 - i = 1 := by omega
          rw [e, List.drop_succ_cons, List.drop_zero]
          exact hng
        · refine Or.inr ⟨by omega, by simp only [List.length_cons]; omega, ?_⟩
          have e : l + 1 - i = (l + 1 - (i + 1)) + 1 := by omega
          rw [e, List.drop_succ_cons]
          exact h3

theorem collectGo_stateNone {gg : ρ → Option JVal} {g : String} :
    ∀ (xs : List ρ) (i : Nat),
    (∀ r ∈ xs, (gg r).isSome) →
    (collectGo gg g xs i none none = .ok ⟨none, none⟩ ∧ NoG gg g xs) ∨
      (∃ f l, collectGo gg g xs i none none = .ok ⟨some f, some l⟩ ∧
        i ≤ f ∧ f ≤ l ∧ l < i + xs.length ∧
        NoG gg g (xs.take (f - i)) ∧ NoG gg g (xs.drop (l + 1 - i))) := by
  intro xs
  induction xs with
  | nil =>
    intro i _
    exact Or.inl ⟨rfl, fun r hr => absurd hr (by simp)⟩
  | cons r rest ih =>
    intro i hwf
    have hr := hwf r (by simp)
    cases hv : gg r with
    | none => rw [hv] at hr; exact absurd hr (by simp)
    | some v =>
      cases hv2 : v.eqStr g with
      | false =>
        have hstep : collectGo gg g (r :: rest) i none none =
            collectGo gg g rest (i + 1) none none := by
          simp only [collectGo, hv, hv2]
          rw [if_neg (by simp), if_neg (by simp)]
        rw [hstep]
        rcases ih (i + 1) (fun x hx => hwf x (by simp [hx])) with
          ⟨hgo, hng⟩ | ⟨f, l, hgo, h1, h2, h3, h4, h5⟩
        · refine Or.inl ⟨hgo, fun x hx => ?_⟩
          rcases List.mem_cons.mp hx with hx | hx
          · subst hx; unfold tagged; rw [hv]; exact hv2
          · exact hng x hx
        · refine Or.inr ⟨f, l, hgo, by omega, h2,
            by simp only [List.length_cons]; omega, ?_, ?_⟩
          · have e : f - i = (f - (i + 1)) + 1 := by omega
            rw [e, List.take_succ_cons]
            intro x hx
            rcases List.mem_cons.mp hx with hx | hx
            · subst hx; unfold tagged; rw [hv]; exact hv2
            · exact h4 x hx
          · have e : l + 1 - i = (l + 1 - (i + 1)) + 1 := by omega
            rw [e, List.drop_succ_cons]
            exact h5
      | true =>
        have hstep : collectGo gg g (r :: rest) i none none =
            collectGo gg g rest (i + 1) (some i) (some i) := by
          simp only [collectGo, hv, hv2]
          rw [if_pos ⟨trivial, trivial⟩, if_pos trivial]
        rw [hstep]
        obtain ⟨l, hgo, hcase⟩ := collectGo_stateSome rest (i + 1) i i
          (fun x hx => hwf x (by simp [hx]))
        rcases hcase with ⟨hl, hng⟩ | ⟨h1, h2, h3⟩
        · refine Or.inr ⟨i, l, hgo, le_refl i, by omega,
            by simp only [List.length_cons]; omega,
            by rw [Nat.sub_self, List.take_zero]; exact NoG_nil, ?_⟩
          have e : l + 1 - i = 1 := by omega
          rw [e, List.drop_succ_cons, List.drop_zero]
          exact hng
        · refine Or.inr ⟨i, l, hgo, le_refl i, by omega,
            by simp only [List.length_cons]; omega,
            by rw [Nat.sub_self, List.take_zero]; exact NoG_nil, ?_⟩
          have e : l + 1 - i = (l + 1 - (i + 1)) + 1 := by omega
          rw [e, List.drop_succ_cons]
          exact h3

/-- On a well-formed sequence containing the group, the collect succeeds
and the slices outside `first..last` contain no record of the group. -/
theorem collect_found {gg : ρ → Option JVal} {g : String} {cfg : List ρ}
    (hwf : wfG gg cfg) (hex : ∃ r ∈ cfg, tagged gg g r = true) :
    ∃ f l, _collect_group_ordering_data_item gg cfg g =
        .ok ⟨some f, some l⟩ ∧
      f ≤ l ∧ l < cfg.length ∧
      NoG gg g (cfg.take f) ∧ NoG gg g (cfg.drop (l + 1)) := by
  rcases collectGo_stateNone cfg 0 hwf with ⟨_, hng⟩ | ⟨f, l, hgo, _, h2, h3, h4, h5⟩
  · obtain ⟨r, hr, ht⟩ := hex
    rw [hng r hr] at ht
    exact absurd ht (by simp)
  · refine ⟨f, l, ?_, h2, by omega, by simpa using h4, by simpa using h5⟩
    unfold _collect_group_ordering_data_item
    rw [hgo]
    simp [GroupOrderingDataItem.is_found]

/-- On a well-formed sequence containing the group, `_pop_group_2`
succeeds, the shrunk sequence has no record of the group left, and both
results only contain records of the input. -/
theorem pop_found {gg : ρ → Option JVal} {g : String} {cfg : List ρ}
    (hwf : wfG gg cfg) (hex : ∃ r ∈ cfg, tagged gg g r = true) :
    ∃ B₂ rest₂, _pop_group_2 gg cfg g = .ok (B₂, rest₂) ∧
      NoG gg g rest₂ ∧ (∀ x ∈ B₂, x ∈ cfg) ∧ (∀ x ∈ rest₂, x ∈ cfg) := by
  obtain ⟨f, l, hcol, hfl, hlen, htake, hdrop⟩ := collect_found hwf hex
  unfold _pop_group_2
  rw [hcol]
  simp only [Option.getD_some]
  refine ⟨_, _, rfl, ?_, ?_, ?_⟩
  · intro x hx
    rcases List.mem_append.mp hx with hx | hx
    · exact htake x hx
    · exact hdrop x hx
  · intro x hx
    exact List.mem_of_mem_take (List.mem_of_mem_drop hx)
  · intro x hx
    rcases List.mem_append.mp hx with hx | hx
    · exact List.mem_of_mem_take hx
    · exact List.mem_of_mem_drop hx

theorem pop_ok_mem {gg : ρ → Option JVal} {g : String} {cfg B₂ rest₂ : List ρ}
    (h : _pop_group_2 gg cfg g = .ok (B₂, rest₂)) :
    (∀ x ∈ B₂, x ∈ cfg) ∧ (∀ x ∈ rest₂, x ∈ cfg) := by
  unfold _pop_group_2 at h
  cases hcol : _collect_group_ordering_data_item gg cfg g with
  | error e => rw [hcol] at h; cases h
  | ok it =>
    rw [hcol] at h
    simp only [Except.ok.injEq, Prod.mk.injEq] at h
    obtain ⟨h1, h2⟩ := h
    subst h1; subst h2
    constructor
    · intro x hx
      exact List.mem_of_mem_take (List.mem_of_mem_drop hx)
    · intro x hx
      rcases List.mem_append.mp hx with hx | hx
      · exact List.mem_of_mem_take hx
      · exact List.mem_of_mem_drop hx

theorem insert_ok_mem {gg : ρ → Option JVal} {g : String}
    {cfg block out : List ρ}
    (h : _insert_group_2_after_group_1 gg cfg g block = .ok out) :
    ∀ x ∈ out, x ∈ cfg ∨ x ∈ block := by
  unfold _insert_group_2_after_group_1 at h
  cases hcol : _collect_group_ordering_data_item gg cfg g with
  | error e => rw [hcol] at h; cases h
  | ok it =>
    rw [hcol] at h
    simp only [Except.ok.injEq] at h
    subst h
    intro x hx
    rcases List.mem_append.mp hx with hx | hx
    · rcases List.mem_append.mp hx with hx | hx
      · exact Or.inl (List.mem_of_mem_take hx)
      · exact Or.inr hx
    · exact Or.inl (List.mem_of_mem_drop hx)

/-! Step equations for `sortLoop`, one per control path of the loop
body. -/

theorem sortLoop_pop_key {gg : ρ → Option JVal} {cfg : List ρ}
    {g1 g2 : String} {rest : List (String × String)} {ws : List String}
    {r : ρ} (h : _pop_group_2 gg cfg g2 = .error (.keyError r)) :
    sortLoop gg ((g1, g2) :: rest) cfg ws = (.error r, ws) := by
  simp [sortLoop, h]

theorem sortLoop_pop_nf {gg : ρ → Option JVal} {cfg : List ρ}
    {g1 g2 : String} {rest : List (String × String)} {ws : List String}
    {n : String} (h : _pop_group_2 gg cfg g2 = .error (.groupNotFound n)) :
    sortLoop gg ((g1, g2) :: rest) cfg ws = sortLoop gg rest cfg (ws ++ [n]) := by
  simp [sortLoop, h]

theorem sortLoop_ins_key {gg : ρ → Option JVal} {cfg block cfg' : List ρ}
    {g1 g2 : String} {rest : List (String × String)} {ws : List String}
    {r : ρ} (hp : _pop_group_2 gg cfg g2 = .ok (block, cfg'))
    (hi : _insert_group_2_after_group_1 gg cfg' g1 block =
      .error (.keyError r)) :
    sortLoop gg ((g1, g2) :: rest) cfg ws = (.error r, ws) := by
  simp [sortLoop, hp, hi]

theorem sortLoop_ins_nf {gg : ρ → Option JVal} {cfg block cfg' : List ρ}
    {g1 g2 : String} {rest : List (String × String)} {ws : List String}
    {n : String} (hp : _pop_group_2 gg cfg g2 = .ok (block, cfg'))
    (hi : _insert_group_2_after_group_1 gg cfg' g1 block =
      .error (.groupNotFound n)) :
    sortLoop gg ((g1, g2) :: rest) cfg ws =
      sortLoop gg rest cfg' (ws ++ [n]) := by
  simp [sortLoop, hp, hi]

theorem sortLoop_ins_ok {gg : ρ → Option JVal} {cfg block cfg' cfg'' : List ρ}
    {g1 g2 : String} {rest : List (String × String)} {ws : List String}
    (hp : _pop_group_2 gg cfg g2 = .ok (block, cfg'))
    (hi : _insert_group_2_after_group_1 gg cfg' g1 block = .ok cfg'') :
    sortLoop gg ((g1, g2) :: rest) cfg ws = sortLoop gg rest cfg'' ws := by
  simp [sortLoop, hp, hi]

theorem sortLoop_ws_mono {gg : ρ → Option JVal} :
    ∀ (pairs : List (String × String)) (cfg : List ρ) (ws : List String),
    ∃ ext, (sortLoop gg pairs cfg ws).2 = ws ++ ext := by
  intro pairs
  induction pairs with
  | nil => intro cfg ws; exact ⟨[], by simp [sortLoop]⟩
  | cons p rest ih =>
    intro cfg ws
    obtain ⟨g1, g2⟩ := p
    cases hpop : _pop_group_2 gg cfg g2 with
    | error e =>
      cases e with
      | keyError r => exact ⟨[], by rw [sortLoop_pop_key hpop]; simp⟩
      | groupNotFound n =>
        obtain ⟨ext, hext⟩ := ih cfg (ws ++ [n])
        refine ⟨[n] ++ ext, ?_⟩
        rw [sortLoop_pop_nf hpop, hext, List.append_assoc]
    | ok pr =>
      obtain ⟨block, cfg'⟩ := pr
      cases hins : _insert_group_2_after_group_1 gg cfg' g1 block with
      | error e =>
        cases e with
        | keyError r => exact ⟨[], by rw [sortLoop_ins_key hpop hins]; simp⟩
        | groupNotFound n =>
          obtain ⟨ext, hext⟩ := ih cfg' (ws ++ [n])
          refine ⟨[n] ++ ext, ?_⟩
          rw [sortLoop_ins_nf hpop hins, hext, List.append_assoc]
      | ok cfg'' =>
        rw [sortLoop_ins_ok hpop hins]
        exact ih cfg'' ws

theorem sortLoop_mem {gg : ρ → Option JVal} :
    ∀ (pairs : List (String × String)) (cfg : List ρ) (ws : List String)
    (out : List ρ) (ws' : List String),
    sortLoop gg pairs cfg ws = (.ok out, ws') → ∀ x ∈ out, x ∈ cfg := by
  intro pairs
  induction pairs with
  | nil =>
    intro cfg ws out ws' h
    simp only [sortLoop, Prod.mk.injEq, Except.ok.injEq] at h
    rw [← h.1]
    exact fun x hx => hx
  | cons p rest ih =>
    intro cfg ws out ws' h
    obtain ⟨g1, g2⟩ := p
    cases hpop : _pop_group_2 gg cfg g2 with
    | error e =>
      cases e with
      | keyError r => rw [sortLoop_pop_key hpop] at h; simp at h
      | groupNotFound n =>
        rw [sortLoop_pop_nf hpop] at h
        exact ih cfg (ws ++ [n]) out ws' h
    | ok pr =>
      obtain ⟨block, cfg'⟩ := pr
      have hsub := pop_ok_mem hpop
      cases hins : _insert_group_2_after_group_1 gg cfg' g1 block with
      | error e =>
        cases e with
        | keyError r => rw [sortLoop_ins_key hpop hins] at h; simp at h
        | groupNotFound n =>
          rw [sortLoop_ins_nf hpop hins] at h
          intro x hx
          exact hsub.2 x (ih cfg' (ws ++ [n]) out ws' h x hx)
      | ok cfg'' =>
        rw [sortLoop_ins_ok hpop hins] at h
        intro x hx
        have hx'' := ih cfg'' ws out ws' h x hx
        rcases insert_ok_mem hins x hx'' with hx' | hx'
        · exact hsub.2 x hx'
        · exact hsub.1 x hx'

/-! ## Decomposition machinery

The sorter moves whole contiguous blocks.  `split_disjoint` is the
master overlap lemma: two decompositions of the same list around
segments that cannot share a record (one satisfies `P`, the other
refutes it) must be nested one way or the other. -/

theorem getD_mem_of_lt {l : List ρ} {n : Nat} {d : ρ} (h : n < l.length) :
    l.getD n d ∈ l := by
  rw [List.getD_eq_getElem l d h]
  exact List.getElem_mem h

theorem getD_middle_mem {A M C : List ρ} {i : Nat} {d : ρ}
    (h1 : A.length ≤ i) (h2 : i < A.length + M.length) :
    (A ++ M ++ C).getD i d ∈ M := by
  rw [List.append_assoc, List.getD_append_right A (M ++ C) d i h1,
    List.getD_append M C d (i - A.length) (by omega)]
  exact getD_mem_of_lt (by omega)

theorem split_disjoint {l A M C X B Y : List ρ} {P : ρ → Prop}
    (h1 : l = A ++ M ++ C) (h2 : l = X ++ B ++ Y)
    (hM : ∀ r ∈ M, P r) (hB : ∀ r ∈ B, ¬P r)
    (hMne : M ≠ []) (hBne : B ≠ []) :
    (∃ D, X = A ++ M ++ D ∧ C = D ++ B ++ Y) ∨
      (∃ D, A = X ++ B ++ D ∧ Y = D ++ M ++ C) := by
  have hMlen : 1 ≤ M.length := List.length_pos.mpr hMne
  have hBlen : 1 ≤ B.length := List.length_pos.mpr hBne
  rcases le_or_lt (A.length + M.length) X.length with hle | hgt
  · -- `A ++ M` is a prefix of `X`
    left
    have hX : X = A ++ M ++ X.drop (A.length + M.length) := by
      have hXtake : X.take (A.length + M.length) = A ++ M := by
        have e1 : l.take (A.length + M.length) = A ++ M := by
          rw [h1]; exact List.take_left' (by simp)
        have e2 : l.take (A.length + M.length) =
            X.take (A.length + M.length) := by
          rw [h2, List.append_assoc]
          rw [List.take_append_of_le_length (by omega)]
        rw [← e2, e1]
      calc X = X.take (A.length + M.length) ++ X.drop (A.length + M.length) :=
            (List.take_append_drop _ _).symm
        _ = A ++ M ++ X.drop (A.length + M.length) := by rw [hXtake]
    have hC : C = X.drop (A.length + M.length) ++ B ++ Y := by
      have h3 := h1.symm.trans h2
      rw [hX] at h3
      simp only [List.append_assoc] at h3
      have h4 := List.append_cancel_left (List.append_cancel_left h3)
      simp only [List.append_assoc]
      exact h4
    exact ⟨X.drop (A.length + M.length), hX, hC⟩
  · rcases le_or_lt (X.length + B.length) A.length with hle' | hgt'
    · -- `X ++ B` is a prefix of `A`
      right
      have hA : A = X ++ B ++ A.drop (X.length + B.length) := by
        have hAtake : A.take (X.length + B.length) = X ++ B := by
          have e1 : l.take (X.length + B.length) = X ++ B := by
            rw [h2]; exact List.take_left' (by simp)
          have e2 : l.take (X.length + B.length) =
              A.take (X.length + B.length) := by
            rw [h1, List.append_assoc]
            rw [List.take_append_of_le_length (by omega)]
          rw [← e2, e1]
        calc A = A.take (X.length + B.length) ++ A.drop (X.length + B.length) :=
              (List.take_append_drop _ _).symm
          _ = X ++ B ++ A.drop (X.length + B.length) := by rw [hAtake]
      have hY : Y = A.drop (X.length + B.length) ++ M ++ C := by
        have h3 := h2.symm.trans h1
        rw [hA] at h3
        simp only [List.append_assoc] at h3
        have h4 := List.append_cancel_left (List.append_cancel_left h3)
        simp only [List.append_assoc]
        exact h4
      exact ⟨A.drop (X.length + B.length), hA, hY⟩
    · -- overlapping ranges: the record at index `max |A| |X|` would be in
      -- both `M` and `B`
      exfalso
      obtain ⟨m, hm⟩ := List.exists_mem_of_ne_nil M hMne
      have hinM : l.getD (max A.length X.length) m ∈ M := by
        rw [h1]
        exact getD_middle_mem (by omega) (by omega)
      have hinB : l.getD (max A.length X.length) m ∈ B := by
        rw [h2]
        exact getD_middle_mem (by omega) (by omega)
      exact hB _ hinB (hM _ hinM)

theorem NoG_subset {gg : ρ → Option JVal} {g : String} {rs rs' : List ρ}
    (hsub : ∀ r ∈ rs', r ∈ rs) (hn : NoG gg g rs) : NoG gg g rs' :=
  fun r hr => hn r (hsub r hr)

theorem wfG_subset {gg : ρ → Option JVal} {rs rs' : List ρ}
    (hsub : ∀ r ∈ rs', r ∈ rs) (hw : wfG gg rs) : wfG gg rs' :=
  fun r hr => hw r (hsub r hr)

theorem pure_not {gg : ρ → Option JVal} {a b : String} {rs : List ρ}
    (hp : PureG gg a rs) (hab : a ≠ b) : ∀ r ∈ rs, ¬(tagged gg b r = true) := by
  intro r hr ht
  rw [tagged_ne_false (hp.2 r hr) hab] at ht
  cases ht

/-- Removing a foreign contiguous block keeps a protected segment `M`
contiguous, shrinking only its surroundings. -/
theorem remove_block_keeps {X B₂ Y A M C : List ρ} {P : ρ → Prop}
    (heq : X ++ B₂ ++ Y = A ++ M ++ C)
    (hM : ∀ r ∈ M, P r) (hB : ∀ r ∈ B₂, ¬P r)
    (hMne : M ≠ []) (hBne : B₂ ≠ []) :
    ∃ A' C', X ++ Y = A' ++ M ++ C' ∧
      (∀ r ∈ A', r ∈ A) ∧ (∀ r ∈ C', r ∈ C) := by
  rcases split_disjoint heq rfl hM hB hMne hBne with
    ⟨D, hXD, hCD⟩ | ⟨D, hAD, hYD⟩
  · refine ⟨A, D ++ Y, ?_, fun r hr => hr, ?_⟩
    · rw [hXD]; simp [List.append_assoc]
    · intro r hr
      rw [hCD]
      rcases List.mem_append.mp hr with hr | hr
      · simp [hr]
      · simp [hr]
  · refine ⟨X ++ D, C, ?_, ?_, fun r hr => hr⟩
    · rw [hYD]; simp [List.append_assoc]
    · intro r hr
      rw [hAD]
      rcases List.mem_append.mp hr with hr | hr
      · simp [hr]
      · simp [hr]

/-- Splicing a block in right after a foreign block `B₁` keeps a
protected segment `M` contiguous; the surroundings grow only by records
of the spliced block. -/
theorem insert_block_keeps {X B₁ Y A M C : List ρ} (block : List ρ)
    {P : ρ → Prop}
    (heq : X ++ B₁ ++ Y = A ++ M ++ C)
    (hM : ∀ r ∈ M, P r) (hB : ∀ r ∈ B₁, ¬P r)
    (hMne : M ≠ []) (hBne : B₁ ≠ []) :
    ∃ A' C', X ++ B₁ ++ block ++ Y = A' ++ M ++ C' ∧
      (∀ r ∈ A', r ∈ A ∨ r ∈ block) ∧ (∀ r ∈ C', r ∈ C ∨ r ∈ block) := by
  rcases split_disjoint heq rfl hM hB hMne hBne with
    ⟨D, hXD, hCD⟩ | ⟨D, hAD, hYD⟩
  · refine ⟨A, D ++ B₁ ++ block ++ Y, ?_, fun r hr => Or.inl hr, ?_⟩
    · rw [hXD]; simp [List.append_assoc]
    · intro r hr
      rw [hCD]
      simp only [List.append_assoc, List.mem_append] at hr ⊢
      tauto
  · refine ⟨X ++ B₁ ++ block ++ D, C, ?_, ?_, fun r hr => Or.inl hr⟩
    · rw [hYD]; simp [List.append_assoc]
    · intro r hr
      rw [hAD]
      simp only [List.append_assoc, List.mem_append] at hr ⊢
      tauto

/-- A group's blocked decomposition is unique. -/
theorem blocked_unique {gg : ρ → Option JVal} {g : String}
    {X B Y A B' C : List ρ}
    (hwf : wfG gg (X ++ B ++ Y))
    (heq : X ++ B ++ Y = A ++ B' ++ C)
    (hBp : PureG gg g B) (hX : NoG gg g X) (hY : NoG gg g Y)
    (hB' : PureG gg g B') (hA : NoG gg g A) (hC : NoG gg g C) :
    X = A ∧ B = B' ∧ Y = C := by
  have hsub : ∀ r ∈ A ++ B' ++ C, r ∈ X ++ B ++ Y := by
    rw [heq]; exact fun r hr => hr
  have hwfX : ∀ r ∈ X, (gg r).isSome :=
    fun r hr => hwf r (by simp [List.mem_append, hr])
  have hwfY : ∀ r ∈ Y, (gg r).isSome :=
    fun r hr => hwf r (by simp [List.mem_append, hr])
  have hwfA : ∀ r ∈ A, (gg r).isSome :=
    fun r hr => hwf r (hsub r (by simp [List.mem_append, hr]))
  have hwfC : ∀ r ∈ C, (gg r).isSome :=
    fun r hr => hwf r (hsub r (by simp [List.mem_append, hr]))
  have c1 := @collect_blocked _ gg g X B Y hX hwfX hBp hY hwfY
  have c2 := @collect_blocked _ gg g A B' C hA hwfA hB' hC hwfC
  rw [heq] at c1
  rw [c2] at c1
  simp only [Except.ok.injEq, GroupOrderingDataItem.mk.injEq, Option.some.injEq] at c1
  have hBlen : 1 ≤ B.length := List.length_pos.mpr hBp.1
  have hB'len : 1 ≤ B'.length := List.length_pos.mpr hB'.1
  have hlen1 : X.length = A.length := c1.1.symm
  have hlen2 : B.length = B'.length := by omega
  have hXA : X = A := by
    have e1 : (X ++ B ++ Y).take X.length = X := by
      rw [List.append_assoc]; exact List.take_left X _
    have e2 : (A ++ B' ++ C).take A.length = A := by
      rw [List.append_assoc]; exact List.take_left A _
    rw [← e1, ← e2, ← heq, hlen1]
  subst hXA
  have hrest : B ++ Y = B' ++ C := by
    have := heq
    rw [List.append_assoc, List.append_assoc] at this
    exact List.append_cancel_left this
  have hBB : B = B' := by
    have e1 : (B ++ Y).take B.length = B := List.take_left B Y
    have e2 : (B' ++ C).take B'.length = B' := List.take_left B' C
    rw [← e1, ← e2, ← hrest, hlen2]
  subst hBB
  exact ⟨rfl, rfl, List.append_cancel_left hrest⟩

theorem blocked_keep_remove {gg : ρ → Option JVal} {h g₂ : String}
    {X B₂ Y : List ρ} (hne : h ≠ g₂) (hB₂ : PureG gg g₂ B₂)
    (hbl : IsBlocked gg h (X ++ B₂ ++ Y)) : IsBlocked gg h (X ++ Y) := by
  obtain ⟨A, M, C, heq, hM, hA, hC⟩ := hbl
  have hdis : ∀ r ∈ B₂, ¬(tagged gg h r = true) := pure_not hB₂ (Ne.symm hne)
  obtain ⟨A', C', heq', hsubA, hsubC⟩ :=
    remove_block_keeps heq hM.2 hdis hM.1 hB₂.1
  exact ⟨A', M, C', heq', hM, NoG_subset hsubA hA, NoG_subset hsubC hC⟩

theorem adj_keep_remove {gg : ρ → Option JVal} {h g g₂ : String}
    {X B₂ Y : List ρ} (hne1 : g₂ ≠ h) (hne2 : g₂ ≠ g)
    (hB₂ : PureG gg g₂ B₂)
    (hadj : Adj gg h g (X ++ B₂ ++ Y)) : Adj gg h g (X ++ Y) := by
  obtain ⟨A, Bh, Bg, C, heq, hph, hpg, hA1, hA2, hC1, hC2⟩ := hadj
  have heq' : X ++ B₂ ++ Y = A ++ (Bh ++ Bg) ++ C := by
    rw [heq]; simp [List.append_assoc]
  have hM : ∀ r ∈ Bh ++ Bg,
      (tagged gg h r = true ∨ tagged gg g r = true) := by
    intro r hr
    rcases List.mem_append.mp hr with hr | hr
    · exact Or.inl (hph.2 r hr)
    · exact Or.inr (hpg.2 r hr)
  have hdis : ∀ r ∈ B₂,
      ¬(tagged gg h r = true ∨ tagged gg g r = true) := by
    intro r hr hor
    rcases hor with ht | ht
    · exact absurd (tagged_unique (hB₂.2 r hr) ht) hne1
    · exact absurd (tagged_unique (hB₂.2 r hr) ht) hne2
  have hMne : Bh ++ Bg ≠ [] := by
    simp [List.append_eq_nil, hph.1]
  obtain ⟨A', C', heq'', hsubA, hsubC⟩ :=
    remove_block_keeps heq' hM hdis hMne hB₂.1
  refine ⟨A', Bh, Bg, C', by rw [heq'']; simp [List.append_assoc], hph, hpg,
    NoG_subset hsubA hA1, NoG_subset hsubA hA2,
    NoG_subset hsubC hC1, NoG_subset hsubC hC2⟩

theorem blocked_keep_insert {gg : ρ → Option JVal} {h g₁ gb : String}
    {X B₁ Y : List ρ} (block : List ρ)
    (hne1 : h ≠ g₁) (hne2 : h ≠ gb)
    (hB₁ : PureG gg g₁ B₁) (hblock : PureG gg gb block)
    (hbl : IsBlocked gg h (X ++ B₁ ++ Y)) :
    IsBlocked gg h (X ++ B₁ ++ block ++ Y) := by
  obtain ⟨A, M, C, heq, hM, hA, hC⟩ := hbl
  have hdis : ∀ r ∈ B₁, ¬(tagged gg h r = true) :=
    pure_not hB₁ (Ne.symm hne1)
  obtain ⟨A', C', heq', hsubA, hsubC⟩ :=
    insert_block_keeps block heq hM.2 hdis hM.1 hB₁.1
  refine ⟨A', M, C', heq', hM, ?_, ?_⟩
  · intro r hr
    rcases hsubA r hr with hr' | hr'
    · exact hA r hr'
    · exact tagged_ne_false (hblock.2 r hr') (Ne.symm hne2)
  · intro r hr
    rcases hsubC r hr with hr' | hr'
    · exact hC r hr'
    · exact tagged_ne_false (hblock.2 r hr') (Ne.symm hne2)

theorem adj_keep_insert_other {gg : ρ → Option JVal} {h g g₁ gb : String}
    {X B₁ Y : List ρ} (block : List ρ)
    (h1 : g₁ ≠ h) (h2 : g₁ ≠ g) (h3 : gb ≠ h) (h4 : gb ≠ g)
    (hB₁ : PureG gg g₁ B₁) (hblock : PureG gg gb block)
    (hadj : Adj gg h g (X ++ B₁ ++ Y)) :
    Adj gg h g (X ++ B₁ ++ block ++ Y) := by
  obtain ⟨A, Bh, Bg, C, heq, hph, hpg, hA1, hA2, hC1, hC2⟩ := hadj
  have heq' : X ++ B₁ ++ Y = A ++ (Bh ++ Bg) ++ C := by
    rw [heq]; simp [List.append_assoc]
  have hM : ∀ r ∈ Bh ++ Bg,
      (tagged gg h r = true ∨ tagged gg g r = true) := by
    intro r hr
    rcases List.mem_append.mp hr with hr | hr
    · exact Or.inl (hph.2 r hr)
    · exact Or.inr (hpg.2 r hr)
  have hdis : ∀ r ∈ B₁,
      ¬(tagged gg h r = true ∨ tagged gg g r = true) := by
    intro r hr hor
    rcases hor with ht | ht
    · exact absurd (tagged_unique (hB₁.2 r hr) ht) h1
    · exact absurd (tagged_unique (hB₁.2 r hr) ht) h2
  have hMne : Bh ++ Bg ≠ [] := by
    simp [List.append_eq_nil, hph.1]
  obtain ⟨A', C', heq'', hsubA, hsubC⟩ :=
    insert_block_keeps block heq' hM hdis hMne hB₁.1
  have hcA1 : NoG gg h A' := by
    intro r hr
    rcases hsubA r hr with hr' | hr'
    · exact hA1 r hr'
    · exact tagged_ne_false (hblock.2 r hr') h3
  have hcA2 : NoG gg g A' := by
    intro r hr
    rcases hsubA r hr with hr' | hr'
    · exact hA2 r hr'
    · exact tagged_ne_false (hblock.2 r hr') h4
  have hcC1 : NoG gg h C' := by
    intro r hr
    rcases hsubC r hr with hr' | hr'
    · exact hC1 r hr'
    · exact tagged_ne_false (hblock.2 r hr') h3
  have hcC2 : NoG gg g C' := by
    intro r hr
    rcases hsubC r hr with hr' | hr'
    · exact hC2 r hr'
    · exact tagged_ne_false (hblock.2 r hr') h4
  exact ⟨A', Bh, Bg, C', by rw [heq'']; simp [List.append_assoc], hph, hpg,
    hcA1, hcA2, hcC1, hcC2⟩

/-- Splicing a foreign block in right after the full span of `g` keeps
`g`'s span immediately after `h`'s span. -/
theorem adj_keep_insert_target {gg : ρ → Option JVal} {h g gb : String}
    {X B₁ Y : List ρ} (block : List ρ)
    (hhg : h ≠ g) (h3 : gb ≠ h) (h4 : gb ≠ g)
    (hwf : wfG gg (X ++ B₁ ++ Y))
    (hB₁ : PureG gg g B₁) (hX : NoG gg g X) (hY : NoG gg g Y)
    (hblock : PureG gg gb block)
    (hadj : Adj gg h g (X ++ B₁ ++ Y)) :
    Adj gg h g (X ++ B₁ ++ block ++ Y) := by
  obtain ⟨A, Bh, Bg, C, heq, hph, hpg, hA1, hA2, hC1, hC2⟩ := hadj
  have heq' : X ++ B₁ ++ Y = (A ++ Bh) ++ Bg ++ C := heq
  have hABh : NoG gg g (A ++ Bh) := by
    intro r hr
    rcases List.mem_append.mp hr with hr | hr
    · exact hA2 r hr
    · exact tagged_ne_false (hph.2 r hr) hhg
  obtain ⟨e1, e2, e3⟩ := blocked_unique hwf heq' hB₁ hX hY hpg hABh hC2
  refine ⟨A, Bh, Bg, block ++ C, ?_, hph, hpg, hA1, hA2, ?_, ?_⟩
  · rw [e1, e2, e3]; simp [List.append_assoc]
  · intro r hr
    rcases List.mem_append.mp hr with hr | hr
    · exact tagged_ne_false (hblock.2 r hr) h3
    · exact hC1 r hr
  · intro r hr
    rcases List.mem_append.mp hr with hr | hr
    · exact tagged_ne_false (hblock.2 r hr) h4
    · exact hC2 r hr

/-- The main invariant of the Ordering Engine on distinct, existing,
contiguous specification groups: the loop succeeds with no warning, the
result is a permutation, every specification group stays blocked, every
processed adjacent pair ends adjacent, and blockedness / adjacency of
groups the remaining specification does not touch is preserved. -/
theorem sortLoop_chain {gg : ρ → Option JVal} :
    ∀ (od : List String) (cfg : List ρ) (ws : List String),
    od.Nodup → wfG gg cfg → (∀ g ∈ od, IsBlocked gg g cfg) →
    ∃ cfg', sortLoop gg (od.zip od.tail) cfg ws = (.ok cfg', ws) ∧
      cfg'.Perm cfg ∧ wfG gg cfg' ∧
      (∀ g ∈ od, IsBlocked gg g cfg') ∧
      (∀ p ∈ od.zip od.tail, Adj gg p.1 p.2 cfg') ∧
      (∀ h, h ∉ od.tail → IsBlocked gg h cfg → IsBlocked gg h cfg') ∧
      (∀ h g, h ∉ od → g ∉ od.tail → Adj gg h g cfg → Adj gg h g cfg') := by
  intro od
  induction od with
  | nil =>
    intro cfg ws _ hwf _
    exact ⟨cfg, by simp [sortLoop], List.Perm.refl cfg, hwf,
      fun g hg => absurd hg (by simp), fun p hp => absurd hp (by simp),
      fun h _ hb => hb, fun h g _ _ ha => ha⟩
  | cons g0 od' ih =>
    intro cfg ws hnd hwf hbl
    cases od' with
    | nil =>
      exact ⟨cfg, by simp [sortLoop], List.Perm.refl cfg, hwf,
        fun g hg => by
          simp only [List.mem_singleton] at hg
          rw [hg]
          exact hbl g0 (by simp),
        fun p hp => absurd hp (by simp),
        fun h _ hb => hb, fun h g _ _ ha => ha⟩
    | cons g1 rest =>
      simp only [List.tail_cons]
      -- facts from Nodup
      have hnd0 : g0 ∉ g1 :: rest := (List.nodup_cons.mp hnd).1
      have hnd' : (g1 :: rest).Nodup := (List.nodup_cons.mp hnd).2
      have hne01 : g0 ≠ g1 := fun e => hnd0 (by simp [e])
      have h0rest : g0 ∉ rest := fun e => hnd0 (by simp [e])
      have h1rest : g1 ∉ rest := (List.nodup_cons.mp hnd').1
      -- g1's block in cfg
      obtain ⟨X, B₂, Y, heq2, hp2, hX2, hY2⟩ := hbl g1 (by simp)
      have hwfX : ∀ r ∈ X, (gg r).isSome :=
        fun r hr => hwf r (by rw [heq2]; simp [List.mem_append, hr])
      have hwfY : ∀ r ∈ Y, (gg r).isSome :=
        fun r hr => hwf r (by rw [heq2]; simp [List.mem_append, hr])
      have hpop : _pop_group_2 gg cfg g1 = .ok (B₂, X ++ Y) := by
        rw [heq2]
        exact pop_blocked hX2 hwfX hp2 hY2 hwfY
      -- the shrunk sequence
      have hwfp : wfG gg (X ++ Y) := by
        intro r hr
        refine hwf r ?_
        rw [heq2]
        rcases List.mem_append.mp hr with hr | hr <;>
          simp [List.mem_append, hr]
      have hnog1p : NoG gg g1 (X ++ Y) := by
        intro r hr
        rcases List.mem_append.mp hr with hr | hr
        · exact hX2 r hr
        · exact hY2 r hr
      -- g0's block in the shrunk sequence
      have hb0p : IsBlocked gg g0 (X ++ Y) := by
        refine blocked_keep_remove hne01 hp2 ?_
        rw [← heq2]
        exact hbl g0 (by simp)
      obtain ⟨X', B₁, Y', heqp, hp1, hX1, hY1⟩ := hb0p
      have hwfX' : ∀ r ∈ X', (gg r).isSome :=
        fun r hr => hwfp r (by rw [heqp]; simp [List.mem_append, hr])
      have hwfY' : ∀ r ∈ Y', (gg r).isSome :=
        fun r hr => hwfp r (by rw [heqp]; simp [List.mem_append, hr])
      have hins : _insert_group_2_after_group_1 gg (X ++ Y) g0 B₂ =
          .ok (X' ++ B₁ ++ B₂ ++ Y') := by
        rw [heqp]
        exact insert_blocked B₂ hX1 hwfX' hp1 hY1 hwfY'
      -- cleanliness of the insert decomposition w.r.t. g1
      have hnog1X' : NoG gg g1 X' :=
        NoG_subset (fun r hr => by rw [heqp]; simp [List.mem_append, hr]) hnog1p
      have hnog1B₁ : NoG gg g1 B₁ :=
        NoG_subset (fun r hr => by rw [heqp]; simp [List.mem_append, hr]) hnog1p
      have hnog1Y' : NoG gg g1 Y' :=
        NoG_subset (fun r hr => by rw [heqp]; simp [List.mem_append, hr]) hnog1p
      -- the sequence after the first pair
      set cfg₁ := X' ++ B₁ ++ B₂ ++ Y' with hcfg₁
      have hperm : cfg₁.Perm cfg := by
        have h1 : cfg₁.Perm ((X' ++ B₁ ++ Y') ++ B₂) := by
          have e1 : cfg₁ = (X' ++ B₁) ++ (B₂ ++ Y') := by
            simp [hcfg₁, List.append_assoc]
          have e2 : (X' ++ B₁) ++ (Y' ++ B₂) = (X' ++ B₁ ++ Y') ++ B₂ := by
            simp [List.append_assoc]
          rw [e1, ← e2]
          exact List.Perm.append_left _ List.perm_append_comm
        have h2 : cfg.Perm ((X ++ Y) ++ B₂) := by
          rw [heq2]
          have e1 : X ++ B₂ ++ Y = X ++ (B₂ ++ Y) := by
            simp [List.append_assoc]
          have e2 : X ++ (Y ++ B₂) = (X ++ Y) ++ B₂ := by
            simp [List.append_assoc]
          rw [e1, ← e2]
          exact List.Perm.append_left _ List.perm_append_comm
        rw [← heqp] at h1
        exact h1.trans h2.symm
      have hwf₁ : wfG gg cfg₁ :=
        fun r hr => hwf r (hperm.mem_iff.mp hr)
      -- blockedness in cfg₁
      have hbl1 : IsBlocked gg g1 cfg₁ := by
        refine ⟨X' ++ B₁, B₂, Y', by simp [hcfg₁, List.append_assoc], hp2, ?_,
          hnog1Y'⟩
        intro r hr
        rcases List.mem_append.mp hr with hr | hr
        · exact hnog1X' r hr
        · exact hnog1B₁ r hr
      have hbl0 : IsBlocked gg g0 cfg₁ := by
        refine ⟨X', B₁, B₂ ++ Y', by simp [hcfg₁, List.append_assoc], hp1, hX1, ?_⟩
        intro r hr
        rcases List.mem_append.mp hr with hr | hr
        · exact tagged_ne_false (hp2.2 r hr) (Ne.symm hne01)
        · exact hY1 r hr
      have hblrest : ∀ g ∈ rest, IsBlocked gg g cfg₁ := by
        intro g hg
        have hgne1 : g ≠ g1 := fun e => h1rest (e ▸ hg)
        have hgne0 : g ≠ g0 := fun e => h0rest (e ▸ hg)
        have hstep1 : IsBlocked gg g (X ++ Y) := by
          refine blocked_keep_remove hgne1 hp2 ?_
          rw [← heq2]
          exact hbl g (by simp [hg])
        rw [heqp] at hstep1
        exact blocked_keep_insert B₂ hgne0 hgne1 hp1 hp2 hstep1
      -- Adjacency of the first pair in cfg₁
      have hadj01 : Adj gg g0 g1 cfg₁ :=
        ⟨X', B₁, B₂, Y', rfl, hp1, hp2, hX1, hnog1X', hY1, hnog1Y'⟩
      -- the loop step
      have hloop : sortLoop gg ((g0 :: g1 :: rest).zip (g1 :: rest)) cfg ws =
          sortLoop gg ((g1 :: rest).zip rest) cfg₁ ws := by
        rw [List.zip_cons_cons]
        exact sortLoop_ins_ok hpop hins
      -- frame of the step
      have hstepframe : ∀ h g, h ∉ (g0 :: g1 :: rest) → g ∉ (g1 :: rest) →
          Adj gg h g cfg → Adj gg h g cfg₁ := by
        intro h g hh hg hadj
        have hne_h_g1 : g1 ≠ h := fun e => hh (by simp [e])
        have hne_g_g1 : g1 ≠ g := fun e => hg (by simp [e])
        have hne_h_g0 : g0 ≠ h := fun e => hh (by simp [e])
        have hadjp : Adj gg h g (X ++ Y) := by
          refine adj_keep_remove hne_h_g1 hne_g_g1 hp2 ?_
          rw [← heq2]
          exact hadj
        rw [heqp] at hadjp
        rcases eq_or_ne g g0 with hgg0 | hgg0
        · subst hgg0
          have hwfXBY : wfG gg (X' ++ B₁ ++ Y') := by rw [← heqp]; exact hwfp
          exact adj_keep_insert_target B₂ (fun e => hne_h_g0 e.symm)
            hne_h_g1 hne_g_g1 hwfXBY hp1 hX1 hY1 hp2 hadjp
        · exact adj_keep_insert_other B₂ hne_h_g0 (Ne.symm hgg0)
            hne_h_g1 hne_g_g1 hp1 hp2 hadjp
      -- blocked frame of the step (for h outside the tail)
      have hstepblocked : ∀ h, h ∉ (g1 :: rest) →
          IsBlocked gg h cfg → IsBlocked gg h cfg₁ := by
        intro h hh hb
        have hne_h_g1 : h ≠ g1 := fun e => hh (by simp [e])
        have hb' : IsBlocked gg h (X ++ Y) := by
          refine blocked_keep_remove hne_h_g1 hp2 ?_
          rw [← heq2]
          exact hb
        rcases eq_or_ne h g0 with hg0 | hg0
        · subst hg0
          exact hbl0
        · rw [heqp] at hb'
          exact blocked_keep_insert B₂ hg0 hne_h_g1 hp1 hp2 hb'
      -- apply the inductive hypothesis to the tail specification
      obtain ⟨cfg', hloop', hperm', hwf', hblall', hadj', hblf', hadjf'⟩ :=
        ih cfg₁ ws hnd' hwf₁ (by
          intro g hg
          rcases List.mem_cons.mp hg with hg | hg
          · subst hg; exact hbl1
          · exact hblrest g hg)
      refine ⟨cfg', ?_, hperm'.trans hperm, hwf', ?_, ?_, ?_, ?_⟩
      · rw [hloop]
        exact hloop'
      · intro g hg
        rcases List.mem_cons.mp hg with hg | hg
        · rw [hg]
          exact hblf' g0 (fun e => h0rest e) hbl0
        · exact hblall' g hg
      · intro p hp
        rw [List.zip_cons_cons] at hp
        rcases List.mem_cons.mp hp with hp | hp
        · subst hp
          exact hadjf' g0 g1 (by simp [hnd0]) h1rest hadj01
        · exact hadj' p hp
      · intro h hh hb
        have hh' : h ∉ rest := fun e => hh (by simp [e])
        exact hblf' h hh' (hstepblocked h hh hb)
      · intro h g hh hg hadj
        have hh' : h ∉ (g1 :: rest) := fun e => hh (by simp [e])
        have hg' : g ∉ rest := fun e => hg (by simp [e])
        exact hadjf' h g hh' hg' (hstepframe h g hh hg hadj)

/-- A group is either absent or forms one contiguous block. -/
def BlockedOrAbsent (gg : ρ → Option JVal) (g : String) (cfg : List ρ) :
    Prop :=
  NoG gg g cfg ∨ IsBlocked gg g cfg

theorem filter_of_pure {gg : ρ → Option JVal} {g : String} {rs : List ρ}
    (h : PureG gg g rs) : rs.filter (tagged gg g) = rs :=
  List.filter_eq_self.mpr h.2

theorem filter_of_nog {gg : ρ → Option JVal} {g : String} {rs : List ρ}
    (h : NoG gg g rs) : rs.filter (tagged gg g) = [] :=
  List.filter_eq_nil_iff.mpr (fun r hr => by rw [h r hr]; simp)

/-- On a sequence in which every group is contiguous (or absent), the
Ordering Engine always succeeds and, for every group, either keeps the
group's subsequence exactly or drops it entirely; contiguity is also
preserved. -/
theorem sortLoop_stable {gg : ρ → Option JVal} :
    ∀ (pairs : List (String × String)) (cfg : List ρ) (ws : List String),
    wfG gg cfg → (∀ g, BlockedOrAbsent gg g cfg) →
    ∃ cfg' ws', sortLoop gg pairs cfg ws = (.ok cfg', ws') ∧
      wfG gg cfg' ∧ (∀ g, BlockedOrAbsent gg g cfg') ∧
      (∀ g, cfg'.filter (tagged gg g) = cfg.filter (tagged gg g) ∨
        cfg'.filter (tagged gg g) = []) := by
  intro pairs
  induction pairs with
  | nil =>
    intro cfg ws hwf hinv
    exact ⟨cfg, ws, by simp [sortLoop], hwf, hinv, fun g => Or.inl rfl⟩
  | cons p rest ih =>
    intro cfg ws hwf hinv
    obtain ⟨a, b⟩ := p
    rcases hinv b with hnb | hbb
    · -- b absent: the pair is skipped with no mutation
      have hpop : _pop_group_2 gg cfg b = .error (.groupNotFound b) :=
        pop_absent hwf hnb
      obtain ⟨cfg', ws', hloop, hwf', hinv', hfil⟩ := ih cfg (ws ++ [b]) hwf hinv
      exact ⟨cfg', ws', by rw [sortLoop_pop_nf hpop]; exact hloop, hwf', hinv',
        hfil⟩
    · -- b blocked: pop it
      obtain ⟨X, B₂, Y, heq2, hp2, hX2, hY2⟩ := hbb
      have hwfX : ∀ r ∈ X, (gg r).isSome :=
        fun r hr => hwf r (by rw [heq2]; simp [List.mem_append, hr])
      have hwfY : ∀ r ∈ Y, (gg r).isSome :=
        fun r hr => hwf r (by rw [heq2]; simp [List.mem_append, hr])
      have hpop : _pop_group_2 gg cfg b = .ok (B₂, X ++ Y) := by
        rw [heq2]
        exact pop_blocked hX2 hwfX hp2 hY2 hwfY
      have hsubp : ∀ r ∈ X ++ Y, r ∈ cfg := by
        intro r hr
        rw [heq2]
        rcases List.mem_append.mp hr with hr | hr <;>
          simp [List.mem_append, hr]
      have hwfp : wfG gg (X ++ Y) := wfG_subset hsubp hwf
      have hnbp : NoG gg b (X ++ Y) := by
        intro r hr
        rcases List.mem_append.mp hr with hr | hr
        · exact hX2 r hr
        · exact hY2 r hr
      -- filters of the shrunk sequence
      have hfilp : ∀ g, g ≠ b →
          (X ++ Y).filter (tagged gg g) = cfg.filter (tagged gg g) := by
        intro g hg
        rw [heq2]
        have hB₂g : B₂.filter (tagged gg g) = [] :=
          filter_of_nog (fun r hr => tagged_ne_false (hp2.2 r hr) (Ne.symm hg))
        simp [List.filter_append, hB₂g]
      have hfilpb : (X ++ Y).filter (tagged gg b) = [] := filter_of_nog hnbp
      have hinvp : ∀ g, BlockedOrAbsent gg g (X ++ Y) := by
        intro g
        rcases eq_or_ne g b with hgb | hgb
        · rw [hgb]; exact Or.inl hnbp
        · rcases hinv g with hng | hbg
          · exact Or.inl (NoG_subset hsubp hng)
          · refine Or.inr (blocked_keep_remove hgb hp2 ?_)
            rw [← heq2]
            exact hbg
      rcases hinvp a with hna | hba
      · -- a absent from the shrunk sequence: b stays removed
        have hins : _insert_group_2_after_group_1 gg (X ++ Y) a B₂ =
            .error (.groupNotFound a) := insert_absent B₂ hwfp hna
        obtain ⟨cfg', ws', hloop, hwf', hinv', hfil⟩ :=
          ih (X ++ Y) (ws ++ [a]) hwfp hinvp
        refine ⟨cfg', ws', by rw [sortLoop_ins_nf hpop hins]; exact hloop,
          hwf', hinv', ?_⟩
        intro g
        rcases eq_or_ne g b with hgb | hgb
        · subst hgb
          rcases hfil g with hf | hf
          · rw [hf, hfilpb]; exact Or.inr rfl
          · exact Or.inr hf
        · rcases hfil g with hf | hf
          · rw [hf, hfilp g hgb]; exact Or.inl rfl
          · exact Or.inr hf
      · -- a blocked in the shrunk sequence: splice b back in after a
        obtain ⟨X', B₁, Y', heqp, hp1, hX1, hY1⟩ := hba
        have hab : a ≠ b := by
          intro e
          obtain ⟨r, hr⟩ := List.exists_mem_of_ne_nil B₁ hp1.1
          have hrp : r ∈ X ++ Y := by
            rw [heqp]; simp [List.mem_append, hr]
          have := hnbp r hrp
          rw [← e, hp1.2 r hr] at this
          cases this
        have hwfX' : ∀ r ∈ X', (gg r).isSome :=
          fun r hr => hwfp r (by rw [heqp]; simp [List.mem_append, hr])
        have hwfY' : ∀ r ∈ Y', (gg r).isSome :=
          fun r hr => hwfp r (by rw [heqp]; simp [List.mem_append, hr])
        have hins : _insert_group_2_after_group_1 gg (X ++ Y) a B₂ =
            .ok (X' ++ B₁ ++ B₂ ++ Y') := by
          rw [heqp]
          exact insert_blocked B₂ hX1 hwfX' hp1 hY1 hwfY'
        have hnbX' : NoG gg b X' :=
          NoG_subset (fun r hr => by rw [heqp]; simp [List.mem_append, hr]) hnbp
        have hnbB₁ : NoG gg b B₁ :=
          NoG_subset (fun r hr => by rw [heqp]; simp [List.mem_append, hr]) hnbp
        have hnbY' : NoG gg b Y' :=
          NoG_subset (fun r hr => by rw [heqp]; simp [List.mem_append, hr]) hnbp
        have hsub1 : ∀ r ∈ X' ++ B₁ ++ B₂ ++ Y', r ∈ cfg := by
          intro r hr
          simp only [List.append_assoc, List.mem_append] at hr
          rcases hr with hr | hr | hr | hr
          · exact hsubp r (by rw [heqp]; simp [List.mem_append, hr])
          · exact hsubp r (by rw [heqp]; simp [List.mem_append, hr])
          · rw [heq2]; simp [List.mem_append, hr]
          · exact hsubp r (by rw [heqp]; simp [List.mem_append, hr])
        have hwf₁ : wfG gg (X' ++ B₁ ++ B₂ ++ Y') := wfG_subset hsub1 hwf
        have hfil₁ : ∀ g, (X' ++ B₁ ++ B₂ ++ Y').filter (tagged gg g) =
            cfg.filter (tagged gg g) := by
          intro g
          rcases eq_or_ne g b with hgb | hgb
          · subst hgb
            rw [heq2]
            simp only [List.filter_append, filter_of_nog hnbX',
              filter_of_nog hnbB₁, filter_of_nog hnbY', filter_of_pure hp2,
              filter_of_nog hX2, filter_of_nog hY2]
            simp
          · have hB₂g : B₂.filter (tagged gg g) = [] :=
              filter_of_nog
                (fun r hr => tagged_ne_false (hp2.2 r hr) (Ne.symm hgb))
            have : (X' ++ B₁ ++ B₂ ++ Y').filter (tagged gg g) =
                (X' ++ B₁ ++ Y').filter (tagged gg g) := by
              simp [List.filter_append, hB₂g]
            rw [this, ← heqp, hfilp g hgb]
        have hinv₁ : ∀ g, BlockedOrAbsent gg g (X' ++ B₁ ++ B₂ ++ Y') := by
          intro g
          rcases eq_or_ne g b with hgb | hgb
          · subst hgb
            refine Or.inr ⟨X' ++ B₁, B₂, Y', by simp [List.append_assoc],
              hp2, ?_, hnbY'⟩
            intro r hr
            rcases List.mem_append.mp hr with hr | hr
            · exact hnbX' r hr
            · exact hnbB₁ r hr
          · rcases eq_or_ne g a with hga | hga
            · subst hga
              refine Or.inr ⟨X', B₁, B₂ ++ Y', by simp [List.append_assoc],
                hp1, hX1, ?_⟩
              intro r hr
              rcases List.mem_append.mp hr with hr | hr
              · exact tagged_ne_false (hp2.2 r hr) (Ne.symm hgb)
              · exact hY1 r hr
            · rcases hinvp g with hng | hbg
              · refine Or.inl ?_
                intro r hr
                simp only [List.append_assoc, List.mem_append] at hr
                rcases hr with hr | hr | hr | hr
                · exact hng r (by rw [heqp]; simp [List.mem_append, hr])
                · exact hng r (by rw [heqp]; simp [List.mem_append, hr])
                · exact tagged_ne_false (hp2.2 r hr) (Ne.symm hgb)
                · exact hng r (by rw [heqp]; simp [List.mem_append, hr])
              · rw [heqp] at hbg
                exact Or.inr
                  (blocked_keep_insert B₂ hga hgb hp1 hp2 hbg)
        obtain ⟨cfg', ws', hloop, hwf', hinv', hfil⟩ :=
          ih (X' ++ B₁ ++ B₂ ++ Y') ws hwf₁ hinv₁
        refine ⟨cfg', ws', by rw [sortLoop_ins_ok hpop hins]; exact hloop,
          hwf', hinv', ?_⟩
        intro g
        rcases hfil g with hf | hf
        · rw [hf, hfil₁ g]; exact Or.inl rfl
        · exact Or.inr hf

theorem insert_found {gg : ρ → Option JVal} {g : String} {cfg : List ρ}
    (block : List ρ) (hwf : wfG gg cfg)
    (hex : ∃ r ∈ cfg, tagged gg g r = true) :
    ∃ out, _insert_group_2_after_group_1 gg cfg g block = .ok out := by
  obtain ⟨f, l, hcol, _, _, _, _⟩ := collect_found hwf hex
  unfold _insert_group_2_after_group_1
  rw [hcol]
  exact ⟨_, rfl⟩

theorem nog_of_not_exists {gg : ρ → Option JVal} {g : String} {cfg : List ρ}
    (hne : ¬∃ r ∈ cfg, tagged gg g r = true) : NoG gg g cfg := by
  intro r hr
  cases h : tagged gg g r with
  | false => rfl
  | true => exact absurd ⟨r, hr, h⟩ hne

/-- On well-formed input the Ordering Engine never raises `KeyError`:
the loop always terminates with a sequence drawn from the input. -/
theorem sortLoop_total {gg : ρ → Option JVal} :
    ∀ (pairs : List (String × String)) (cfg : List ρ) (ws : List String),
    wfG gg cfg →
    ∃ cfg' ws', sortLoop gg pairs cfg ws = (.ok cfg', ws') ∧
      (∀ x ∈ cfg', x ∈ cfg) := by
  intro pairs
  induction pairs with
  | nil =>
    intro cfg ws _
    exact ⟨cfg, ws, by simp [sortLoop], fun x hx => hx⟩
  | cons p rest ih =>
    intro cfg ws hwf
    obtain ⟨a, b⟩ := p
    by_cases hexb : ∃ r ∈ cfg, tagged gg b r = true
    · obtain ⟨B₂, cfgp, hpop, hnb, hsB, hsR⟩ := pop_found hwf hexb
      have hwfp : wfG gg cfgp := wfG_subset hsR hwf
      by_cases hexa : ∃ r ∈ cfgp, tagged gg a r = true
      · obtain ⟨out, hins⟩ := insert_found B₂ hwfp hexa
        have hsub1 : ∀ x ∈ out, x ∈ cfg := by
          intro x hx
          rcases insert_ok_mem hins x hx with hx' | hx'
          · exact hsR x hx'
          · exact hsB x hx'
        obtain ⟨cfg', ws', hloop, hmem⟩ := ih out ws (wfG_subset hsub1 hwf)
        exact ⟨cfg', ws', by rw [sortLoop_ins_ok hpop hins]; exact hloop,
          fun x hx => hsub1 x (hmem x hx)⟩
      · have hins := insert_absent B₂ hwfp (nog_of_not_exists hexa)
        obtain ⟨cfg', ws', hloop, hmem⟩ := ih cfgp (ws ++ [a]) hwfp
        exact ⟨cfg', ws', by rw [sortLoop_ins_nf hpop hins]; exact hloop,
          fun x hx => hsR x (hmem x hx)⟩
    · have hpop := pop_absent hwf (nog_of_not_exists hexb)
      obtain ⟨cfg', ws', hloop, hmem⟩ := ih cfg (ws ++ [b]) hwf
      exact ⟨cfg', ws', by rw [sortLoop_pop_nf hpop]; exact hloop, hmem⟩

/-- If some specification pair names a group with no record, the loop
logs at least one missing-group warning. -/
theorem sortLoop_warns {gg : ρ → Option JVal} :
    ∀ (pairs : List (String × String)) (cfg : List ρ) (ws : List String)
    (z : String),
    wfG gg cfg → NoG gg z cfg → (∃ q ∈ pairs, q.1 = z ∨ q.2 = z) →
    ws.length < (sortLoop gg pairs cfg ws).2.length := by
  intro pairs
  induction pairs with
  | nil =>
    intro cfg ws z _ _ hq
    obtain ⟨q, hq, _⟩ := hq
    exact absurd hq (by simp)
  | cons p rest ih =>
    intro cfg ws z hwf hnz hq
    obtain ⟨a, b⟩ := p
    by_cases hexb : ∃ r ∈ cfg, tagged gg b r = true
    · obtain ⟨B₂, cfgp, hpop, hnb, hsB, hsR⟩ := pop_found hwf hexb
      have hwfp : wfG gg cfgp := wfG_subset hsR hwf
      have hnzp : NoG gg z cfgp := NoG_subset hsR hnz
      by_cases hexa : ∃ r ∈ cfgp, tagged gg a r = true
      · obtain ⟨out, hins⟩ := insert_found B₂ hwfp hexa
        rw [sortLoop_ins_ok hpop hins]
        have hsub1 : ∀ x ∈ out, x ∈ cfg := by
          intro x hx
          rcases insert_ok_mem hins x hx with hx' | hx'
          · exact hsR x hx'
          · exact hsB x hx'
        have hq' : ∃ q ∈ rest, q.1 = z ∨ q.2 = z := by
          obtain ⟨q, hqm, hqz⟩ := hq
          rcases List.mem_cons.mp hqm with hqm | hqm
          · exfalso
            rcases hqz with hqz | hqz
            · -- a = z, yet a-records exist in the z-free shrunk sequence
              obtain ⟨r, hr, ht⟩ := hexa
              rw [hqm] at hqz
              simp only at hqz
              rw [hqz] at ht
              rw [hnzp r hr] at ht
              cases ht
            · obtain ⟨r, hr, ht⟩ := hexb
              rw [hqm] at hqz
              simp only at hqz
              rw [hqz] at ht
              rw [hnz r hr] at ht
              cases ht
          · exact ⟨q, hqm, hqz⟩
        exact ih out ws z (wfG_subset hsub1 hwf)
          (NoG_subset hsub1 hnz) hq'
      · have hins := insert_absent B₂ hwfp (nog_of_not_exists hexa)
        rw [sortLoop_ins_nf hpop hins]
        obtain ⟨ext, hext⟩ := sortLoop_ws_mono rest cfgp (ws ++ [a])
        rw [hext]
        simp [List.length_append]
    · have hpop := pop_absent hwf (nog_of_not_exists hexb)
      rw [sortLoop_pop_nf hpop]
      obtain ⟨ext, hext⟩ := sortLoop_ws_mono rest cfg (ws ++ [b])
      rw [hext]
      simp [List.length_append]

/-- When every pair's second group is absent, every pair is skipped with
no mutation at all. -/
theorem sortLoop_noop {gg : ρ → Option JVal} :
    ∀ (pairs : List (String × String)) (cfg : List ρ) (ws : List String),
    wfG gg cfg → (∀ q ∈ pairs, NoG gg q.2 cfg) →
    ∃ ws', sortLoop gg pairs cfg ws = (.ok cfg, ws') := by
  intro pairs
  induction pairs with
  | nil => intro cfg ws _ _; exact ⟨ws, by simp [sortLoop]⟩
  | cons p rest ih =>
    intro cfg ws hwf hall
    obtain ⟨a, b⟩ := p
    have hpop := pop_absent hwf (hall (a, b) (by simp))
    obtain ⟨ws', hloop⟩ := ih cfg (ws ++ [b]) hwf
      (fun q hq => hall q (by simp [hq]))
    exact ⟨ws', by rw [sortLoop_pop_nf hpop]; exact hloop⟩

/-! ## Claim theorems: the Ordering Engine -/

/-- C1: For every Record Sequence and Ordering Specification in which
every group named in the specification exists in the sequence and the
groups are disjoint (distinct names) and already contiguous, the
Ordering Engine (`CustomConfigSorter.get_sorted_custom_config`) returns
a sequence in which, for every adjacent pair `(G1, G2)` of the
specification, the contiguous span of `G2`'s records immediately
follows the contiguous span of `G1`'s records, and the returned
sequence is a permutation of the input: no record is added, removed, or
has any field changed (records are carried whole).  No warning is
raised.  (`wfG` is the Record-Sequence invariant that every record
carries a `"group"` field; `IsBlocked` states existence plus
contiguity.) -/
theorem ordering_engine_chain_correct (cfg : List Record) (od : List String)
    (hwf : wfG recordGroup cfg) (hnd : od.Nodup)
    (hbl : ∀ g ∈ od, IsBlocked recordGroup g cfg) :
    ∃ cfg', get_sorted_custom_config recordGroup cfg od = (.ok cfg', []) ∧
      cfg'.Perm cfg ∧
      (∀ p ∈ od.zip od.tail, Adj recordGroup p.1 p.2 cfg') := by
  obtain ⟨cfg', h1, h2, _, _, h5, _, _⟩ := sortLoop_chain od cfg [] hnd hwf hbl
  exact ⟨cfg', h1, h2, h5⟩

theorem ordering_engine_chain_correct_witness :
    ∃ cfg', get_sorted_custom_config recordGroup
        [[("group", .str "x"), ("k", .num 1)],
          [("group", .str "y"), ("k", .num 2)]] ["y", "x"] =
      (.ok cfg', []) ∧
      cfg'.Perm [[("group", .str "x"), ("k", .num 1)],
        [("group", .str "y"), ("k", .num 2)]] ∧
      (∀ p ∈ (["y", "x"] : List String).zip (["y", "x"] : List String).tail,
        Adj recordGroup p.1 p.2 cfg') := by
  refine ordering_engine_chain_correct _ _ (by unfold wfG; decide) (by decide) ?_
  intro g hg
  simp only [List.mem_cons, List.not_mem_nil, or_false] at hg
  rcases hg with hg | hg
  · rw [hg]
    exact ⟨[[("group", .str "x"), ("k", .num 1)]],
      [[("group", .str "y"), ("k", .num 2)]], [], rfl,
      ⟨List.cons_ne_nil _ _, by decide⟩, by unfold NoG; decide,
      by unfold NoG; decide⟩
  · rw [hg]
    exact ⟨[], [[("group", .str "x"), ("k", .num 1)]],
      [[("group", .str "y"), ("k", .num 2)]], rfl,
      ⟨List.cons_ne_nil _ _, by decide⟩, by unfold NoG; decide,
      by unfold NoG; decide⟩

/-! ## Claim C2: intra-group order -/

/-- Input for the C2 counterexample: group `g2` is NOT contiguous — an
`x` record sits between its two records — so popping `g2`'s span
`first..last` carries that `x` record along. -/
def c2Input : List Record :=
  [[("group", .str "g1")],
    [("group", .str "x"), ("k", .num 1)],
    [("group", .str "g2"), ("k", .num 10)],
    [("group", .str "x"), ("k", .num 2)],
    [("group", .str "g2"), ("k", .num 20)],
    [("group", .str "x"), ("k", .num 3)]]

/-- What the Ordering Engine returns on `c2Input` with spec
`["g1", "g2"]`: the spanned `x` record `k=2` was dragged in front of
`k=1`. -/
def c2Output : List Record :=
  [[("group", .str "g1")],
    [("group", .str "g2"), ("k", .num 10)],
    [("group", .str "x"), ("k", .num 2)],
    [("group", .str "g2"), ("k", .num 20)],
    [("group", .str "x"), ("k", .num 1)],
    [("group", .str "x"), ("k", .num 3)]]

/-- The `"k"` field as an integer, to compare record lists. -/
def kOf (r : Record) : Int :=
  match lookupKey r "k" with
  | some (.num n) => n
  | _ => 0

/-- C2 counterexample: with no contiguity precondition, intra-group
order is NOT preserved for every group.  On `c2Input` with
specification `["g1", "g2"]` the run succeeds, but the subsequence of
group `x` comes back in order `k = 2, 1, 3` instead of `1, 2, 3`. -/
theorem intra_group_order_counterexample :
    get_sorted_custom_config recordGroup c2Input ["g1", "g2"] =
      (.ok c2Output, []) ∧
    (c2Output.filter (tagged recordGroup "x")).map kOf = [2, 1, 3] ∧
    (c2Input.filter (tagged recordGroup "x")).map kOf = [1, 2, 3] ∧
    c2Output.filter (tagged recordGroup "x") ≠
      c2Input.filter (tagged recordGroup "x") := by
  refine ⟨rfl, by decide, by decide, ?_⟩
  intro h
  have h2 := congrArg (List.map kOf) h
  have e1 : (c2Output.filter (tagged recordGroup "x")).map kOf =
      [2, 1, 3] := by decide
  have e2 : (c2Input.filter (tagged recordGroup "x")).map kOf =
      [1, 2, 3] := by decide
  rw [e1, e2] at h2
  exact absurd h2 (by decide)

/-- C2 amended: PROVIDED every group's records are contiguous (or the
group is absent) in the input, the Ordering Engine succeeds and, for
every group name `G`, the subsequence of `G`-records in the output is
either exactly the input's `G`-subsequence (same records, same order)
or empty (`G` dropped by a pair whose first group was missing); it is
never reordered.  Without the contiguity precondition the property
fails (see the counterexample). -/
theorem intra_group_order_amended (cfg : List Record) (od : List String)
    (hwf : wfG recordGroup cfg)
    (hinv : ∀ g, BlockedOrAbsent recordGroup g cfg) :
    ∃ cfg' ws, get_sorted_custom_config recordGroup cfg od =
        (.ok cfg', ws) ∧
      ∀ g, cfg'.filter (tagged recordGroup g) =
          cfg.filter (tagged recordGroup g) ∨
        cfg'.filter (tagged recordGroup g) = [] := by
  obtain ⟨cfg', ws, h1, _, _, h4⟩ :=
    sortLoop_stable (od.zip od.tail) cfg [] hwf hinv
  exact ⟨cfg', ws, h1, h4⟩

theorem intra_group_order_amended_witness :
    ∃ cfg' ws, get_sorted_custom_config recordGroup
        [[("group", .str "x"), ("k", .num 1)],
          [("group", .str "y"), ("k", .num 2)]] ["y", "x"] =
      (.ok cfg', ws) ∧
      ∀ g, cfg'.filter (tagged recordGroup g) =
          ([[("group", .str "x"), ("k", .num 1)],
            [("group", .str "y"), ("k", .num 2)]] : List Record).filter
            (tagged recordGroup g) ∨
        cfg'.filter (tagged recordGroup g) = [] := by
  refine intra_group_order_amended _ _ (by unfold wfG; decide) ?_
  intro g
  by_cases hx : g = "x"
  · refine Or.inr ?_
    rw [hx]
    exact ⟨[], [[("group", .str "x"), ("k", .num 1)]],
      [[("group", .str "y"), ("k", .num 2)]], rfl,
      ⟨List.cons_ne_nil _ _, by decide⟩, by unfold NoG; decide,
      by unfold NoG; decide⟩
  · by_cases hy : g = "y"
    · refine Or.inr ?_
      rw [hy]
      exact ⟨[[("group", .str "x"), ("k", .num 1)]],
        [[("group", .str "y"), ("k", .num 2)]], [], rfl,
        ⟨List.cons_ne_nil _ _, by decide⟩, by unfold NoG; decide,
        by unfold NoG; decide⟩
    · refine Or.inl ?_
      intro r hr
      have hgx : ("x" == g) = false := by
        cases hbe : ("x" == g) with
        | false => rfl
        | true => exact absurd (eq_of_beq hbe).symm hx
      have hgy : ("y" == g) = false := by
        cases hbe : ("y" == g) with
        | false => rfl
        | true => exact absurd (eq_of_beq hbe).symm hy
      simp only [List.mem_cons, List.not_mem_nil, or_false] at hr
      rcases hr with hr | hr <;>
        simp [hr, tagged, recordGroup, lookupKey, JVal.eqStr, hgx, hgy]

/-! ## Claim C5: missing first group drops the popped second group -/

/-- C5: For every specification pair `(G1, G2)` where `G2` exists in
the current sequence but `G1` does not, the Ordering Engine pops `G2`'s
span (leaving no `G2` record behind), the reinsertion fails with
`SortingGroupDoesNotExist(G1)`, so `G2`'s extracted records stay
removed and are not reinserted for that pair, and every subsequent pair
operates on this mutated (`G2`-less) sequence, with the missing group
warned. -/
theorem missing_g1_drops_g2 (cfg : List Record) (g1 g2 : String)
    (rest : List (String × String)) (ws : List String)
    (hwf : wfG recordGroup cfg)
    (hex : ∃ r ∈ cfg, tagged recordGroup g2 r = true)
    (hng1 : NoG recordGroup g1 cfg) :
    ∃ B₂ cfgp, _pop_group_2 recordGroup cfg g2 = .ok (B₂, cfgp) ∧
      NoG recordGroup g2 cfgp ∧
      _insert_group_2_after_group_1 recordGroup cfgp g1 B₂ =
        .error (.groupNotFound g1) ∧
      sortLoop recordGroup ((g1, g2) :: rest) cfg ws =
        sortLoop recordGroup rest cfgp (ws ++ [g1]) := by
  obtain ⟨B₂, cfgp, hpop, hnb, hsB, hsR⟩ := pop_found hwf hex
  have hins := insert_absent B₂ (wfG_subset hsR hwf) (NoG_subset hsR hng1)
  exact ⟨B₂, cfgp, hpop, hnb, hins, sortLoop_ins_nf hpop hins⟩

theorem missing_g1_drops_g2_witness :
    ∃ B₂ cfgp,
      _pop_group_2 recordGroup [[("group", .str "x"), ("k", .num 1)]] "x" =
        .ok (B₂, cfgp) ∧
      NoG recordGroup "x" cfgp ∧
      _insert_group_2_after_group_1 recordGroup cfgp "z" B₂ =
        .error (.groupNotFound "z") ∧
      sortLoop recordGroup [("z", "x")]
          [[("group", .str "x"), ("k", .num 1)]] [] =
        sortLoop recordGroup [] cfgp ([] ++ ["z"]) :=
  missing_g1_drops_g2 [[("group", .str "x"), ("k", .num 1)]] "z" "x" [] []
    (by unfold wfG; decide) (by decide) (by unfold NoG; decide)

/-! ## Claim theorems: the Config Compiler -/

/-- C6: For every run whose ordering manifest deserializes to a list of
length exactly 1, the run fails with the invalid-ordering-specification
`ValueError` raised in `_sort_custom_config`, before the Fragment Store
Rewriter runs: the filesystem (store files and output file) is returned
exactly as it was. -/
theorem length_one_ordering_fatal (mc : Obj)
    (gd : Option (List (String × List Record))) (g : String)
    (out : Option JVal) :
    (JsonCompiler.run ⟨some mc, gd, some [g], out⟩ none).1 =
      some (.valueError "Group order json must have at least 2 group names") ∧
    (JsonCompiler.run ⟨some mc, gd, some [g], out⟩ none).2.1 =
      ⟨some mc, gd, some [g], out⟩ := by
  rcases hlc : _load_custom_config ⟨some mc, gd, some [g], out⟩ with ⟨cc0, lg2⟩
  constructor <;>
    simp [JsonCompiler.run, _load_main_config, hlc, _sort_custom_config]

theorem length_one_ordering_fatal_probe :
    (JsonCompiler.run ⟨some [("a", .num 1)],
        some [("g.json", [[("group", .str "x")]])], some ["x"], none⟩
      none).1 =
      some (.valueError "Group order json must have at least 2 group names") ∧
    (JsonCompiler.run ⟨some [("a", .num 1)],
        some [("g.json", [[("group", .str "x")]])], some ["x"], none⟩
      none).2.1 =
      ⟨some [("a", .num 1)], some [("g.json", [[("group", .str "x")]])],
        some ["x"], none⟩ :=
  length_one_ordering_fatal [("a", .num 1)]
    (some [("g.json", [[("group", .str "x")]])]) "x" none

/-- C3: For every run of the Fragment Store Rewriter
(`_recreate_custom_config_files`) on a live store whose manifest and
groups directory exist (so the backup snapshot succeeds), if an
exception is raised while replacing the live order manifest or the live
group-files directory (injected at any of the three replacement steps),
the rewriter restores both the manifest file and the group-files
directory to exactly their pre-run contents from the backup snapshot —
the returned filesystem equals the initial one — and re-raises the
original exception; and with no fault the previous store is fully
replaced by the new one.  Either way the store is never left in a
partial state. -/
theorem store_rewrite_rollback (mc : Option Obj)
    (oldGroups : List (String × List Record)) (oldOrder : List String)
    (out : Option JVal) (odata : List String) (cc : List Record)
    (groups : List (String × List Record)) (step : FailStep)
    (hpart : partitionGroups cc [] = .ok groups) :
    (_recreate_custom_config_files ⟨mc, some oldGroups, some oldOrder, out⟩
        odata cc (some step)).1 = some (.injected step) ∧
    (_recreate_custom_config_files ⟨mc, some oldGroups, some oldOrder, out⟩
        odata cc (some step)).2.1 = ⟨mc, some oldGroups, some oldOrder, out⟩ ∧
    (_recreate_custom_config_files ⟨mc, some oldGroups, some oldOrder, out⟩
        odata cc none).1 = none ∧
    (_recreate_custom_config_files ⟨mc, some oldGroups, some oldOrder, out⟩
        odata cc none).2.1 =
      ⟨mc, some (groups.map (fun g => (g.1 ++ ".json", g.2))),
        some (groups.map (fun g => g.1)), out⟩ := by
  refine ⟨?_, ?_, ?_, ?_⟩ <;>
    cases step <;>
      simp [_recreate_custom_config_files, hpart]

theorem store_rewrite_rollback_witness :
    (_recreate_custom_config_files
        ⟨some [("a", .num 1)],
          some [("x.json", [[("group", .str "x"), ("k", .num 1)]])],
          some ["x"], none⟩
        ["x"] [[("group", .str "x"), ("k", .num 1)]]
        (some .copyGroupsDir)).1 = some (.injected .copyGroupsDir) ∧
    (_recreate_custom_config_files
        ⟨some [("a", .num 1)],
          some [("x.json", [[("group", .str "x"), ("k", .num 1)]])],
          some ["x"], none⟩
        ["x"] [[("group", .str "x"), ("k", .num 1)]]
        (some .copyGroupsDir)).2.1 =
      ⟨some [("a", .num 1)],
        some [("x.json", [[("group", .str "x"), ("k", .num 1)]])],
        some ["x"], none⟩ ∧
    (_recreate_custom_config_files
        ⟨some [("a", .num 1)],
          some [("x.json", [[("group", .str "x"), ("k", .num 1)]])],
          some ["x"], none⟩
        ["x"] [[("group", .str "x"), ("k", .num 1)]] none).1 = none ∧
    (_recreate_custom_config_files
        ⟨some [("a", .num 1)],
          some [("x.json", [[("group", .str "x"), ("k", .num 1)]])],
          some ["x"], none⟩
        ["x"] [[("group", .str "x"), ("k", .num 1)]] none).2.1 =
      ⟨some [("a", .num 1)],
        some [("x.json", [[("group", .str "x"), ("k", .num 1)]])],
        some ["x"], none⟩ :=
  store_rewrite_rollback (some [("a", .num 1)])
    [("x.json", [[("group", .str "x"), ("k", .num 1)]])] ["x"] none
    ["x"] [[("group", .str "x"), ("k", .num 1)]]
    [("x", [[("group", .str "x"), ("k", .num 1)]])] .copyGroupsDir rfl

/-- C8 (code bug): when the fragments groups directory is ABSENT, the
run does NOT complete: `_load_custom_config` tolerates the absence
(logs "skipping"), but `_recreate_custom_config_files` unconditionally
snapshots the live groups directory (`shutil.copytree` at line 262,
before the `try`), which raises `FileNotFoundError` on the missing
directory and aborts the run with no output produced.  When the
directory is present but empty the run does complete with the merged
output, as the claim says. -/
theorem missing_groups_dir_crashes :
    (JsonCompiler.run ⟨some [("a", .num 1)], none, some [], none⟩ none).1 =
      some (.fileNotFound "config/custom/groups") ∧
    (JsonCompiler.run ⟨some [("a", .num 1)], none, some [], none⟩ none).2.1 =
      ⟨some [("a", .num 1)], none, some [], none⟩ ∧
    (JsonCompiler.run ⟨some [("a", .num 1)], some [], some [], none⟩
      none).1 = none ∧
    (JsonCompiler.run ⟨some [("a", .num 1)], some [], some [], none⟩
      none).2.1.output =
      some (.obj [("a", .num 1), ("customConfig", .arr [])]) := by
  exact ⟨rfl, rfl, rfl, rfl⟩

theorem lookup_setKey_self (m : Obj) (k : String) (v : JVal) :
    lookupKey (setKey m k v) k = some v := by
  induction m with
  | nil => simp [setKey, lookupKey]
  | cons p t ih =>
    obtain ⟨k', v'⟩ := p
    by_cases h : k' = k
    · simp [setKey, lookupKey, h]
    · have hb : (k' == k) = false := by
        cases hbe : (k' == k) with
        | false => rfl
        | true => exact absurd (eq_of_beq hbe) h
      simp [setKey, lookupKey, hb, ih]

theorem lookup_setKey_other (m : Obj) (k k' : String) (v : JVal)
    (h : k' ≠ k) : lookupKey (setKey m k v) k' = lookupKey m k' := by
  have hb : (k == k') = false := by
    cases hbe : (k == k') with
    | false => rfl
    | true => exact absurd (eq_of_beq hbe) (Ne.symm h)
  induction m with
  | nil => simp [setKey, lookupKey, hb]
  | cons p t ih =>
    obtain ⟨k₀, v₀⟩ := p
    by_cases h0 : k₀ = k
    · have hb0 : (k₀ == k') = false := by
        cases hbe : (k₀ == k') with
        | false => rfl
        | true => exact absurd (eq_of_beq hbe) (by rw [h0]; exact Ne.symm h)
      simp [setKey, lookupKey, h0, hb, hb0]
    · have hb1 : (k₀ == k) = false := by
        cases hbe : (k₀ == k) with
        | false => rfl
        | true => exact absurd (eq_of_beq hbe) h0
      by_cases h2 : k₀ = k'
      · simp [setKey, lookupKey, hb1, h2, h]
      · have hb2 : (k₀ == k') = false := by
          cases hbe : (k₀ == k') with
          | false => rfl
          | true => exact absurd (eq_of_beq hbe) h2
        simp [setKey, lookupKey, hb1, hb2, ih]

/-- C9: For every main config and final record sequence, the merged
document built by `_get_joined_main_and_custom_config` maps the
reserved key `customConfig` to the final ordered fragment array and
maps every other key exactly as the main config does (so every key of
the main config is present); and, end to end, for main config
`{"a": 1}`, one fragment file `[{"group":"x","k":1},{"group":"y","k":2}]`
and ordering spec `["y","x"]`, the run succeeds and writes the merged
output `{"a":1, "customConfig":[{"group":"y","k":2},{"group":"x","k":1}]}`. -/
theorem merged_output_shape :
    (∀ (m : Obj) (cc : List Record),
      lookupKey (_get_joined_main_and_custom_config m cc) "customConfig" =
        some (.arr (cc.map .obj))) ∧
    (∀ (m : Obj) (cc : List Record) (k : String), k ≠ "customConfig" →
      lookupKey (_get_joined_main_and_custom_config m cc) k =
        lookupKey m k) ∧
    (JsonCompiler.run ⟨some [("a", .num 1)],
        some [("f.json", [[("group", .str "x"), ("k", .num 1)],
          [("group", .str "y"), ("k", .num 2)]])],
        some ["y", "x"], none⟩ none).1 = none ∧
    (JsonCompiler.run ⟨some [("a", .num 1)],
        some [("f.json", [[("group", .str "x"), ("k", .num 1)],
          [("group", .str "y"), ("k", .num 2)]])],
        some ["y", "x"], none⟩ none).2.1.output =
      some (.obj [("a", .num 1),
        ("customConfig", .arr
          [.obj [("group", .str "y"), ("k", .num 2)],
            .obj [("group", .str "x"), ("k", .num 1)]])]) := by
  refine ⟨?_, ?_, rfl, rfl⟩
  · intro m cc
    exact lookup_setKey_self m "customConfig" (.arr (cc.map .obj))
  · intro m cc k hk
    exact lookup_setKey_other m "customConfig" k (.arr (cc.map .obj)) hk

theorem merged_output_shape_witness :
    lookupKey (_get_joined_main_and_custom_config
        [("a", .num 1)] [[("group", .str "y"), ("k", .num 2)]])
      "customConfig" =
      some (.arr [.obj [("group", .str "y"), ("k", .num 2)]]) ∧
    lookupKey (_get_joined_main_and_custom_config
        [("a", .num 1)] [[("group", .str "y"), ("k", .num 2)]]) "a" =
      some (.num 1) :=
  ⟨merged_output_shape.1 [("a", .num 1)]
      [[("group", .str "y"), ("k", .num 2)]],
    by
      have h := merged_output_shape.2.1 [("a", .num 1)]
        [[("group", .str "y"), ("k", .num 2)]] "a" (by decide)
      rw [h]
      rfl⟩

/-- C10: For every input Record Sequence and Ordering Specification,
running the Ordering Engine leaves the caller's input sequence and
every record in it unchanged.  In the heap model (records live in heap
cells, a Python list of records is a list of cell addresses),
`CustomConfigSorter.__init__`'s `copy.deepcopy` allocates fresh cells
holding copies (`sorterInit`), the sorter never writes any heap cell
(it only rebinds `self._custom_config` to new address lists), so the
cells the caller's addresses reference still hold the original records,
the fresh addresses are disjoint from the caller's, and the returned
sequence references only fresh cells — it shares no mutation with the
argument. -/
theorem sorter_no_aliasing (heap : List Record) (addrs : List Nat)
    (ordering : List String) (hv : ∀ a ∈ addrs, a < heap.length) :
    (∀ a ∈ addrs, (sorterInit heap addrs).1.getD a [] = heap.getD a []) ∧
    (∀ a ∈ (sorterInit heap addrs).2, a ∉ addrs) ∧
    (∀ out ws,
      get_sorted_custom_config (derefGroup (sorterInit heap addrs).1)
        (sorterInit heap addrs).2 ordering = (.ok out, ws) →
      ∀ a ∈ out, a ∉ addrs) := by
  have hfresh : ∀ a ∈ (sorterInit heap addrs).2, heap.length ≤ a := by
    intro a ha
    simp only [sorterInit, List.mem_map, List.mem_range] at ha
    obtain ⟨i, _, hi⟩ := ha
    omega
  refine ⟨?_, ?_, ?_⟩
  · intro a ha
    exact List.getD_append _ _ [] a (hv a ha)
  · intro a ha hmem
    exact absurd (hv a hmem) (by have := hfresh a ha; omega)
  · intro out ws hrun a ha hmem
    have hsub := sortLoop_mem (ordering.zip ordering.tail)
      (sorterInit heap addrs).2 [] out ws hrun a ha
    exact absurd (hv a hmem) (by have := hfresh a hsub; omega)

theorem sorter_no_aliasing_witness :
    ((∀ a ∈ ([0] : List Nat),
      (sorterInit [[("group", JVal.str "x")]] [0]).1.getD a [] =
        ([[("group", JVal.str "x")]] : List Record).getD a []) ∧
    (∀ a ∈ (sorterInit [[("group", JVal.str "x")]] [0]).2,
      a ∉ ([0] : List Nat)) ∧
    (∀ out ws,
      get_sorted_custom_config
          (derefGroup (sorterInit [[("group", JVal.str "x")]] [0]).1)
          (sorterInit [[("group", JVal.str "x")]] [0]).2 ["y", "x"] =
        (.ok out, ws) →
      ∀ a ∈ out, a ∉ ([0] : List Nat))) :=
  sorter_no_aliasing [[("group", JVal.str "x")]] [0] ["y", "x"]
    (by decide)

/-! ## Helpers for the run-level claims -/

/-- The log contains a missing-group warning. -/
def hasWarnLog (lg : List LogEntry) : Bool :=
  lg.any fun e =>
    match e with
    | .warnGroupNotFound _ => true
    | _ => false

/-- The log contains a malformed-record error entry (the record dump
`logger.error` of `_collect_group_ordering_data_item`). -/
def hasMalformedLog (lg : List LogEntry) : Bool :=
  lg.any fun e =>
    match e with
    | .errorMalformed _ => true
    | _ => false

/-- Every record carries a string `"group"` value (what the Fragment
Store Rewriter needs to use it as dict key and file name). -/
def wfStr (cc : List Record) : Prop :=
  ∀ r ∈ cc, ∃ s, recordGroup r = some (.str s)

theorem wfStr_wfG {cc : List Record} (h : wfStr cc) :
    wfG recordGroup cc := by
  intro r hr
  obtain ⟨s, hs⟩ := h r hr
  rw [hs]
  rfl

theorem wfStr_subset {cc cc' : List Record}
    (hsub : ∀ r ∈ cc', r ∈ cc) (h : wfStr cc) : wfStr cc' :=
  fun r hr => h r (hsub r hr)

theorem partition_total :
    ∀ (cc : List Record) (acc : List (String × List Record)),
    wfStr cc → ∃ groups, partitionGroups cc acc = .ok groups := by
  intro cc
  induction cc with
  | nil => intro acc _; exact ⟨acc, rfl⟩
  | cons r rest ih =>
    intro acc hwf
    obtain ⟨s, hs⟩ := hwf r (by simp)
    simp only [partitionGroups, hs, JVal.asString]
    exact ih _ (fun x hx => hwf x (by simp [hx]))

theorem partition_keyerr :
    ∀ (F : List Record) (acc : List (String × List Record))
    (r₀ : Record) (R : List Record),
    wfStr F → recordGroup r₀ = none →
    partitionGroups (F ++ r₀ :: R) acc = .error (.keyError r₀) := by
  intro F
  induction F with
  | nil =>
    intro acc r₀ R _ hr
    simp [partitionGroups, hr]
  | cons f F' ih =>
    intro acc r₀ R hwf hr
    obtain ⟨s, hs⟩ := hwf f (by simp)
    simp only [List.cons_append, partitionGroups, hs, JVal.asString]
    exact ih _ r₀ R (fun x hx => hwf x (by simp [hx])) hr

theorem pop_keyerr {gg : ρ → Option JVal} {g : String} {F : List ρ}
    {r₀ : ρ} {R : List ρ}
    (hF : ∀ r ∈ F, (gg r).isSome) (hr : gg r₀ = none) :
    _pop_group_2 gg (F ++ r₀ :: R) g = .error (.keyError r₀) := by
  unfold _pop_group_2
  rw [collect_keyerr hF hr]

theorem mem_zip_pairs :
    ∀ (od : List String) (z : String), 2 ≤ od.length → z ∈ od →
    ∃ q ∈ od.zip od.tail, q.1 = z ∨ q.2 = z := by
  intro od
  induction od with
  | nil => intro z hlen _; simp at hlen
  | cons o1 rest ih =>
    intro z hlen hz
    cases rest with
    | nil => simp at hlen
    | cons o2 rest2 =>
      rcases List.mem_cons.mp hz with hz1 | hz2
      · exact ⟨(o1, o2), by simp [List.zip_cons_cons], Or.inl hz1.symm⟩
      · cases rest2 with
        | nil =>
          simp only [List.mem_singleton] at hz2
          exact ⟨(o1, o2), by simp [List.zip_cons_cons], Or.inr hz2.symm⟩
        | cons o3 r3 =>
          obtain ⟨q, hq, hqz⟩ := ih z (by simp) hz2
          refine ⟨q, ?_, hqz⟩
          rw [List.tail_cons, List.zip_cons_cons]
          exact List.mem_cons_of_mem _ hq

theorem load_custom_flatten (mc : Option Obj)
    (files : List (String × List Record)) (odf : Option (List String))
    (out : Option JVal) :
    ∃ lg2, _load_custom_config ⟨mc, some files, odf, out⟩ =
      ((files.map (fun f => f.2)).flatten, lg2) := by
  cases files with
  | nil => exact ⟨[.infoNoCustomFiles], rfl⟩
  | cons f fr => exact ⟨_, rfl⟩

/-- Successful-run characterization: when the fragments sort to `cc'`
and partition to `groups`, the run rewrites the store from `groups` and
writes the merged output; the log carries a warning exactly when the
sorter warned. -/
theorem run_success (m : Obj) (files : List (String × List Record))
    (od : List String) (out : Option JVal) (hlen : 2 ≤ od.length)
    (cc' : List Record) (ws' : List String)
    (hsort : sortLoop recordGroup (od.zip od.tail)
      ((files.map (fun f => f.2)).flatten) [] = (.ok cc', ws'))
    (groups : List (String × List Record))
    (hpart : partitionGroups cc' [] = .ok groups) :
    ∃ lg, JsonCompiler.run ⟨some m, some files, some od, out⟩ none =
      (none,
        ⟨some m, some (groups.map (fun g => (g.1 ++ ".json", g.2))),
          some (groups.map (fun g => g.1)),
          some (.obj (setKey m "customConfig" (.arr (cc'.map .obj))))⟩,
        lg) ∧
      (ws' ≠ [] → hasWarnLog lg = true) := by
  obtain ⟨lg2, hload⟩ := load_custom_flatten (some m) files (some od) out
  have hgs : get_sorted_custom_config recordGroup
      ((files.map (fun f => f.2)).flatten) od = (.ok cc', ws') := hsort
  have hsortstep : _sort_custom_config ⟨some m, some files, some od, out⟩
      ((files.map (fun f => f.2)).flatten) =
      (.ok (cc', od), ws'.map .warnGroupNotFound ++
        [.infoSortedGroups (sortedGroupsReport od ws')]) := by
    simp only [_sort_custom_config]
    rw [if_neg (by omega), if_neg (by omega), hgs]
  have hrec : ∃ lg4, _recreate_custom_config_files
      ⟨some m, some files, some od, out⟩ od cc' none =
      (none,
        ⟨some m, some (groups.map (fun g => (g.1 ++ ".json", g.2))),
          some (groups.map (fun g => g.1)), out⟩, lg4) := by
    simp [_recreate_custom_config_files, hpart]
  obtain ⟨lg4, hrec⟩ := hrec
  refine ⟨[LogEntry.infoLoadedMain] ++ lg2 ++
      (ws'.map .warnGroupNotFound ++
        [.infoSortedGroups (sortedGroupsReport od ws')]) ++ lg4 ++
      [.infoWroteOutput], ?_, ?_⟩
  · simp only [JsonCompiler.run, _load_main_config, hload, hsortstep, hrec,
      _get_joined_main_and_custom_config, _replace_config_in_root]
  · intro hne
    obtain ⟨w, ws'', hws⟩ := List.exists_cons_of_ne_nil hne
    subst hws
    simp [hasWarnLog, List.any_append]

/-- C4 counterexample: ordering spec `["z", "x"]` names `z`, absent
from the fragment data `[{"group":"x","k":1}]`.  The run succeeds and a
warning is logged — but the fragment order is NOT unchanged: the pair
`(z, x)` pops group `x` and then fails to find `z`, so the `x` record
is dropped; the merged output's `customConfig` is empty and the record
is lost, contrary to the claim. -/
theorem missing_group_counterexample :
    (JsonCompiler.run ⟨some [("a", .num 1)],
        some [("g.json", [[("group", .str "x"), ("k", .num 1)]])],
        some ["z", "x"], none⟩ none).1 = none ∧
    hasWarnLog (JsonCompiler.run ⟨some [("a", .num 1)],
        some [("g.json", [[("group", .str "x"), ("k", .num 1)]])],
        some ["z", "x"], none⟩ none).2.2 = true ∧
    (JsonCompiler.run ⟨some [("a", .num 1)],
        some [("g.json", [[("group", .str "x"), ("k", .num 1)]])],
        some ["z", "x"], none⟩ none).2.1.output =
      some (.obj [("a", .num 1), ("customConfig", .arr [])]) :=
  ⟨rfl, rfl, rfl⟩

/-- C4 amended: for every run whose Ordering Specification (length ≥ 2)
contains a group name `z` absent from the fragment data — the fragments
otherwise well-formed with string groups — the run still succeeds (exit
zero), a missing-group warning is logged, and the merged output
document is still produced.  The fragment record order is unchanged in
the sub-case in which every specification pair's SECOND group is absent
from the data (each pair's pop fails, so nothing mutates); when an
existing second group is paired after a missing first group its records
are removed instead (see the counterexample and C5). -/
theorem missing_group_amended (m : Obj)
    (files : List (String × List Record)) (od : List String)
    (out : Option JVal) (z : String) (hlen : 2 ≤ od.length)
    (hwf : wfStr ((files.map (fun f => f.2)).flatten)) (hz : z ∈ od)
    (habs : NoG recordGroup z ((files.map (fun f => f.2)).flatten)) :
    (JsonCompiler.run ⟨some m, some files, some od, out⟩ none).1 = none ∧
    hasWarnLog
      (JsonCompiler.run ⟨some m, some files, some od, out⟩ none).2.2 =
      true ∧
    ((JsonCompiler.run ⟨some m, some files, some od, out⟩
      none).2.1.output).isSome ∧
    (∀ cfg : List Record, wfG recordGroup cfg →
      (∀ q ∈ od.zip od.tail, NoG recordGroup q.2 cfg) →
      ∃ ws', get_sorted_custom_config recordGroup cfg od =
        (.ok cfg, ws')) := by
  obtain ⟨cc', ws', hsort, hmem⟩ :=
    sortLoop_total (od.zip od.tail) ((files.map (fun f => f.2)).flatten)
      [] (wfStr_wfG hwf)
  have hwlen : ([] : List String).length <
      (sortLoop recordGroup (od.zip od.tail)
        ((files.map (fun f => f.2)).flatten) []).2.length :=
    sortLoop_warns (od.zip od.tail) _ [] z (wfStr_wfG hwf) habs
      (mem_zip_pairs od z hlen hz)
  rw [hsort] at hwlen
  have hwne : ws' ≠ [] := by
    intro he
    rw [he] at hwlen
    simp at hwlen
  obtain ⟨groups, hpart⟩ :=
    partition_total cc' [] (wfStr_subset hmem hwf)
  obtain ⟨lg, hrun, hwlog⟩ :=
    run_success m files od out hlen cc' ws' hsort groups hpart
  refine ⟨by rw [hrun], by rw [hrun]; exact hwlog hwne, by rw [hrun]; rfl,
    ?_⟩
  intro cfg hw hall
  exact sortLoop_noop (od.zip od.tail) cfg [] hw hall

theorem missing_group_amended_witness :
    ((JsonCompiler.run ⟨some [("a", .num 1)],
        some [("g.json", [[("group", .str "x"), ("k", .num 1)]])],
        some ["x", "z"], none⟩ none).1 = none ∧
    hasWarnLog (JsonCompiler.run ⟨some [("a", .num 1)],
        some [("g.json", [[("group", .str "x"), ("k", .num 1)]])],
        some ["x", "z"], none⟩ none).2.2 = true ∧
    ((JsonCompiler.run ⟨some [("a", .num 1)],
        some [("g.json", [[("group", .str "x"), ("k", .num 1)]])],
        some ["x", "z"], none⟩ none).2.1.output).isSome) ∧
    (∃ ws', get_sorted_custom_config recordGroup
        [[("group", .str "x"), ("k", .num 1)]] ["x", "z"] =
      (.ok [[("group", .str "x"), ("k", .num 1)]], ws')) := by
  have h := missing_group_amended [("a", .num 1)]
    [("g.json", [[("group", .str "x"), ("k", .num 1)]])] ["x", "z"] none
    "z" (by decide)
    (by
      intro r hr
      simp only [List.map_cons, List.map_nil, List.flatten_cons,
        List.flatten_nil, List.append_nil, List.mem_cons,
        List.not_mem_nil, or_false] at hr
      rw [hr]
      exact ⟨"x", rfl⟩)
    (by decide)
    (by unfold NoG; decide)
  refine ⟨⟨h.1, h.2.1, h.2.2.1⟩, ?_⟩
  refine h.2.2.2 [[("group", .str "x"), ("k", .num 1)]]
    (by unfold wfG; decide) ?_
  intro q hq
  simp only [List.zip_cons_cons, List.tail_cons, List.zip_nil_right,
    List.mem_singleton] at hq
  rw [hq]
  unfold NoG
  decide

/-- C7 counterexample: a fragment record lacking a `group` field, in a
run with NO active ordering specification.  The malformed-data error is
raised (at the Rewriter's partition step, before any file is touched)
and the run aborts with the filesystem untouched — but the offending
record is NOT logged: only the sorter's collect loop logs the record
dump, and sorting was skipped.  The "offending record is logged"
conjunct of the claim therefore fails. -/
theorem malformed_record_counterexample :
    (JsonCompiler.run ⟨some [("a", .num 1)],
        some [("g.json", [[("x", .num 1)]])], none, none⟩ none).1 =
      some (.keyError [("x", .num 1)]) ∧
    (JsonCompiler.run ⟨some [("a", .num 1)],
        some [("g.json", [[("x", .num 1)]])], none, none⟩ none).2.1 =
      ⟨some [("a", .num 1)], some [("g.json", [[("x", .num 1)]])],
        none, none⟩ ∧
    hasMalformedLog (JsonCompiler.run ⟨some [("a", .num 1)],
        some [("g.json", [[("x", .num 1)]])], none, none⟩ none).2.2 =
      false :=
  ⟨rfl, rfl, rfl⟩

/-- C7 amended: for every run in which some fragment record lacks a
`group` field (the records before it well formed), a fatal
malformed-data `KeyError` naming the FIRST such record is raised by the
first group lookup that scans it — in the Ordering Engine's collect
scan when an ordering specification of length ≥ 2 is active, otherwise
at the Fragment Store Rewriter's partition step — the run aborts, and
no output file or live store file is created or modified (the
filesystem is returned unchanged).  The offending record is logged only
in the Ordering Engine path; when sorting is skipped the error is
raised without the record dump (see the counterexample). -/
theorem malformed_record_amended (m : Obj)
    (files : List (String × List Record)) (odopt : Option (List String))
    (out : Option JVal) (F : List Record) (r₀ : Record) (R : List Record)
    (hcc : (files.map (fun f => f.2)).flatten = F ++ r₀ :: R)
    (hF : wfStr F) (hr₀ : recordGroup r₀ = none)
    (hod : odopt = none ∨ ∃ od, odopt = some od ∧ od.length ≠ 1) :
    (JsonCompiler.run ⟨some m, some files, odopt, out⟩ none).1 =
      some (.keyError r₀) ∧
    (JsonCompiler.run ⟨some m, some files, odopt, out⟩ none).2.1 =
      ⟨some m, some files, odopt, out⟩ ∧
    (∀ od, odopt = some od → 2 ≤ od.length →
      hasMalformedLog
        (JsonCompiler.run ⟨some m, some files, odopt, out⟩ none).2.2 =
        true) := by
  obtain ⟨lg2, hload⟩ := load_custom_flatten (some m) files odopt out
  have hFsome : ∀ r ∈ F, (recordGroup r).isSome := wfStr_wfG hF
  have hpart : partitionGroups ((files.map (fun f => f.2)).flatten) [] =
      .error (.keyError r₀) := by
    rw [hcc]
    exact partition_keyerr F [] r₀ R hF hr₀
  rcases hod with hodn | ⟨od, hods, hod1⟩
  · -- no ordering file: the error surfaces at the partition step
    subst hodn
    have hsortstep : _sort_custom_config ⟨some m, some files, none, out⟩
        ((files.map (fun f => f.2)).flatten) =
        (.ok ((files.map (fun f => f.2)).flatten, []),
          [.infoNoGroupOrder]) := by
      simp [_sort_custom_config]
    have hrecstep : _recreate_custom_config_files
        ⟨some m, some files, none, out⟩ []
        ((files.map (fun f => f.2)).flatten) none =
        (some (.keyError r₀), ⟨some m, some files, none, out⟩, []) := by
      simp [_recreate_custom_config_files, hpart]
    have hrun : JsonCompiler.run ⟨some m, some files, none, out⟩ none =
        (some (.keyError r₀), ⟨some m, some files, none, out⟩,
          [LogEntry.infoLoadedMain] ++ lg2 ++ [.infoNoGroupOrder] ++ []) := by
      simp only [JsonCompiler.run, _load_main_config, hload, hsortstep,
        hrecstep]
    exact ⟨by rw [hrun], by rw [hrun], fun od h => by cases h⟩
  · subst hods
    rcases Nat.lt_or_ge od.length 2 with hlt | hge
    · -- length 0: ordering data loaded but empty, sorting skipped
      have hl0 : od.length = 0 := by omega
      have hodnil : od = [] := List.length_eq_zero.mp hl0
      subst hodnil
      have hsortstep : _sort_custom_config ⟨some m, some files, some [], out⟩
          ((files.map (fun f => f.2)).flatten) =
          (.ok ((files.map (fun f => f.2)).flatten, []),
            [.infoGroupOrderEmpty]) := by
        simp [_sort_custom_config]
      have hrecstep : _recreate_custom_config_files
          ⟨some m, some files, some [], out⟩ []
          ((files.map (fun f => f.2)).flatten) none =
          (some (.keyError r₀), ⟨some m, some files, some [], out⟩, []) := by
        simp [_recreate_custom_config_files, hpart]
      have hrun : JsonCompiler.run ⟨some m, some files, some [], out⟩ none =
          (some (.keyError r₀), ⟨some m, some files, some [], out⟩,
            [LogEntry.infoLoadedMain] ++ lg2 ++ [.infoGroupOrderEmpty] ++ []) := by
        simp only [JsonCompiler.run, _load_main_config, hload, hsortstep,
          hrecstep]
      exact ⟨by rw [hrun], by rw [hrun], fun od' h hlen => by
        cases h; simp at hlen⟩
    · -- length ≥ 2: the Ordering Engine's collect scan raises and logs
      obtain ⟨o1, od'⟩ : ∃ o1 od', od = o1 :: od' := by
        cases od with
        | nil => simp at hge
        | cons o1 od' => exact ⟨o1, od', rfl⟩
      obtain ⟨od', hodeq⟩ := od'
      subst hodeq
      obtain ⟨o2, rest⟩ : ∃ o2 rest, od' = o2 :: rest := by
        cases od' with
        | nil => simp at hge
        | cons o2 rest => exact ⟨o2, rest, rfl⟩
      obtain ⟨rest, hodeq⟩ := rest
      subst hodeq
      have hpop : _pop_group_2 recordGroup
          ((files.map (fun f => f.2)).flatten) o2 =
          .error (.keyError r₀) := by
        rw [hcc]
        exact pop_keyerr hFsome hr₀
      have hgs : get_sorted_custom_config recordGroup
          ((files.map (fun f => f.2)).flatten) (o1 :: o2 :: rest) =
          (.error r₀, []) := by
        unfold get_sorted_custom_config
        rw [List.tail_cons, List.zip_cons_cons]
        exact sortLoop_pop_key hpop
      have hsortstep : _sort_custom_config
          ⟨some m, some files, some (o1 :: o2 :: rest), out⟩
          ((files.map (fun f => f.2)).flatten) =
          (.error (.keyError r₀), [.errorMalformed r₀]) := by
        simp only [_sort_custom_config]
        rw [if_neg (by simp), if_neg (by simp), hgs]
        simp
      have hrun : JsonCompiler.run
          ⟨some m, some files, some (o1 :: o2 :: rest), out⟩ none =
          (some (.keyError r₀),
            ⟨some m, some files, some (o1 :: o2 :: rest), out⟩,
            [LogEntry.infoLoadedMain] ++ lg2 ++ [.errorMalformed r₀]) := by
        simp only [JsonCompiler.run, _load_main_config, hload, hsortstep]
      refine ⟨by rw [hrun], by rw [hrun], ?_⟩
      intro od' h hlen
      rw [hrun]
      simp [hasMalformedLog, List.any_append]

theorem malformed_record_amended_witness :
    (JsonCompiler.run ⟨some [("a", .num 1)],
        some [("g.json", [[("group", .str "x")], []])],
        some ["x", "y"], none⟩ none).1 =
      some (.keyError []) ∧
    (JsonCompiler.run ⟨some [("a", .num 1)],
        some [("g.json", [[("group", .str "x")], []])],
        some ["x", "y"], none⟩ none).2.1 =
      ⟨some [("a", .num 1)], some [("g.json", [[("group", .str "x")], []])],
        some ["x", "y"], none⟩ ∧
    hasMalformedLog (JsonCompiler.run ⟨some [("a", .num 1)],
        some [("g.json", [[("group", .str "x")], []])],
        some ["x", "y"], none⟩ none).2.2 = true := by
  have h := malformed_record_amended [("a", .num 1)]
    [("g.json", [[("group", .str "x")], []])] (some ["x", "y"]) none
    [[("group", .str "x")]] [] []
    rfl
    (by
      intro r hr
      simp only [List.mem_singleton] at hr
      rw [hr]
      exact ⟨"x", rfl⟩)
    rfl
    (Or.inr ⟨["x", "y"], rfl, by decide⟩)
  exact ⟨h.1, h.2.1, h.2.2 ["x", "y"] rfl (by decide)⟩
